import Mathlib

/-!
Verification of the page-synchronization and defensive-rendering pipeline of the
Vibe Architect web client, shallowly embedded from the TypeScript source
(src/App.tsx, src/components/PreviewArea.tsx, src/services/geminiService.ts):
page validation, page merging by id, project state handling, cross-frame
navigation and defensive HTML post-processing.

Strings are modelled as Lean strings or as lists of characters; string lengths
are counted in UTF-16 code units exactly as JavaScript String.length does.
-/

set_option maxRecDepth 8000
set_option linter.unusedVariables false

/-- Characters matched by the JavaScript regular-expression class backslash-s
(ECMAScript WhiteSpace plus LineTerminator). -/
def jsWhitespace (c : Char) : Bool :=
  c == ' ' || c == '\t' || c == '\n' || c == '\r' ||
  c == Char.ofNat 11 || c == Char.ofNat 12 || c == Char.ofNat 0xa0 ||
  c == Char.ofNat 0x1680 || (0x2000 ≤ c.toNat && c.toNat ≤ 0x200a) ||
  c == Char.ofNat 0x2028 || c == Char.ofNat 0x2029 || c == Char.ofNat 0x202f ||
  c == Char.ofNat 0x205f || c == Char.ofNat 0x3000 || c == Char.ofNat 0xfeff

/-- Length of a string in UTF-16 code units, as JavaScript String.length counts. -/
def jsLength (s : String) : Nat :=
  s.data.foldl (fun n c => n + (if c.toNat < 0x10000 then 1 else 2)) 0

/-- A page of the project (src/types.ts, interface Page). -/
structure Page where
  id : String
  title : String
  content : String
  deriving DecidableEq, Repr

/-- A JavaScript field value as far as isValidPage can observe it: either a
string, or anything that is not a string (number, boolean, object, undefined,
an absent field, ...). -/
inductive JsVal where
  | str (s : String)
  | notStr
  deriving DecidableEq, Repr

/-- Whether the field value is a string (the JavaScript typeof test). -/
def JsVal.isStr : JsVal → Bool
  | .str _ => true
  | .notStr => false

/-- The underlying string of a string field value (junk on non-strings; every
use below is guarded by isStr). -/
def JsVal.getStr : JsVal → String
  | .str s => s
  | .notStr => ""

/-- A candidate page value handed to isValidPage: either not an object at all
(including null, whose typeof is object but which the source rules out
explicitly), or an object with arbitrary id, title and content field values. -/
inductive Candidate where
  | notObject
  | obj (id title content : JsVal)
  deriving DecidableEq, Repr

/-- Validation helper from src/App.tsx (isValidPage, lines 9 to 21): the
candidate must be a non-null object whose id is a non-empty string without
whitespace and whose title and content are strings, the content non-empty and
shorter than 600000 UTF-16 units. -/
def isValidPage (page : Candidate) : Bool :=
  match page with
  | .notObject => false
  | .obj id title content =>
    id.isStr &&
    !(id.getStr.data.any jsWhitespace) &&
    decide (0 < jsLength id.getStr) &&
    title.isStr &&
    content.isStr &&
    decide (0 < jsLength content.getStr) &&
    decide (jsLength content.getStr < 600000)

/-- C4: isValidPage returns false when the candidate is not an object, or its
id is not a string, is empty, or contains a whitespace character, or its title
is not a string, or its content is not a string, is empty, or has length at
least 600000 UTF-16 units; on every other candidate it returns true. The
embedding is a total Lean function, so it never throws. -/
theorem isValidPage_characterization (cand : Candidate) :
    isValidPage cand = true ↔
      ∃ i t c : String, cand = .obj (.str i) (.str t) (.str c) ∧
        0 < jsLength i ∧ (∀ ch ∈ i.data, jsWhitespace ch = false) ∧
        0 < jsLength c ∧ jsLength c < 600000 := by
  cases cand with
  | notObject =>
    simp [isValidPage]
  | obj id title content =>
    cases id with
    | notStr => simp [isValidPage, JsVal.isStr]
    | str i =>
      cases title with
      | notStr =>
        simp [isValidPage, JsVal.isStr]
      | str t =>
        cases content with
        | notStr =>
          simp [isValidPage, JsVal.isStr]
        | str c =>
          simp only [isValidPage, JsVal.isStr, JsVal.getStr, Bool.true_and,
            Bool.and_eq_true, Bool.not_eq_true', decide_eq_true_eq,
            List.any_eq_false]
          constructor
          · rintro ⟨⟨⟨⟨⟨hws, hi⟩, _⟩, _⟩, hc⟩, hlt⟩
            exact ⟨i, t, c, rfl, hi, fun ch hch => by simpa using hws ch hch, hc, hlt⟩
          · rintro ⟨i', t', c', heq, hi, hws, hc, hlt⟩
            cases heq
            exact ⟨⟨⟨⟨⟨fun ch hch => by simpa using hws ch hch, hi⟩, trivial⟩, trivial⟩, hc⟩, hlt⟩



/-- Coerce a well-typed page record to the candidate object that flows into
isValidPage when mergePages revalidates an incoming page. -/
def Page.toCandidate (p : Page) : Candidate :=
  .obj (.str p.id) (.str p.title) (.str p.content)

/-- isValidPage restricted to well-typed page records. -/
def isValidPageRec (p : Page) : Bool := isValidPage p.toCandidate

/-- The ordered key-value store backing mergePages: a JavaScript Map with
string keys and Page values, modelled as an insertion-ordered association
list. -/
abbrev PageMap := List (String × Page)

/-- JavaScript Map.prototype.get restricted to this store: the value of the
first entry with the given key, if any. -/
def lookupP : PageMap → String → Option Page
  | [], _ => none
  | kv :: t, k => if kv.1 == k then some kv.2 else lookupP t k

/-- JavaScript Map.prototype.set: replace the value in place when the key is
present (the entry keeps its original position), otherwise append a new entry
at the end. -/
def mapSet (m : PageMap) (k : String) (v : Page) : PageMap :=
  if (lookupP m k).isSome then
    m.map (fun kv => if kv.1 == k then (k, v) else kv)
  else
    m ++ [(k, v)]

/-- new Map(current.map(p => [p.id, p])) from src/App.tsx line 24: the Map
constructor folds Map.set over the entry list. -/
def mapFromPages (ps : List Page) : PageMap :=
  ps.foldl (fun m p => mapSet m p.id p) []

/-- Page merging from src/App.tsx (mergePages, lines 23 to 33): build a map
keyed by id from the current pages, upsert every incoming page that passes
isValidPage, and return the values in map order. -/
def mergePages (current incoming : List Page) : List Page :=
  let pageMap := mapFromPages current
  let merged := incoming.foldl
    (fun m page => if isValidPageRec page then mapSet m page.id page else m) pageMap
  merged.map (fun kv => kv.2)

/-- The keys of a page map, in order. -/
def keysOf (m : PageMap) : List String := m.map (fun kv => kv.1)

/-- The values of a page map, in order. -/
def valuesOf (m : PageMap) : List Page := m.map (fun kv => kv.2)

/-- Generic form of the two folds inside mergePages: upsert the pages
satisfying pred, in order. -/
def foldUpsert (pred : Page → Bool) (m : PageMap) (ps : List Page) : PageMap :=
  ps.foldl (fun m p => if pred p then mapSet m p.id p else m) m

/-- The genuinely new keys a batch contributes, in first-occurrence order,
relative to the keys already seen. -/
def newKeysP (pred : Page → Bool) : List Page → List String → List String
  | [], _ => []
  | p :: ps, seen =>
    if pred p && !(seen.contains p.id) then p.id :: newKeysP pred ps (seen ++ [p.id])
    else newKeysP pred ps seen

/-- The last page of the batch that satisfies pred and carries the given id
(the batch entry that wins the upsert fold). -/
def lastP (pred : Page → Bool) : List Page → String → Option Page
  | [], _ => none
  | p :: ps, k =>
    match lastP pred ps k with
    | some q => some q
    | none => if pred p && p.id == k then some p else none


theorem lookupP_eq_none_iff (m : PageMap) (k : String) :
    lookupP m k = none ↔ k ∉ keysOf m := by
  induction m with
  | nil => simp [lookupP, keysOf]
  | cons kv t ih =>
    by_cases h : kv.1 = k
    · have hb : (kv.1 == k) = true := by simpa [beq_iff_eq] using h
      simp [lookupP, hb, keysOf, h]
    · have hb : (kv.1 == k) = false := by simpa [beq_iff_eq] using h
      simp [lookupP, hb, keysOf, ih, Ne.symm h]

theorem keysOf_cons (kv : String × Page) (t : PageMap) :
    keysOf (kv :: t) = kv.1 :: keysOf t := rfl

theorem lookupP_isSome_iff (m : PageMap) (k : String) :
    ((lookupP m k).isSome = true) ↔ k ∈ keysOf m := by
  constructor
  · intro h
    by_contra hk
    rw [(lookupP_eq_none_iff m k).2 hk] at h
    simp at h
  · intro h
    cases e : lookupP m k with
    | none => exact absurd h ((lookupP_eq_none_iff m k).1 e)
    | some v => simp

theorem keysOf_mapSet_mem (m : PageMap) (k : String) (v : Page) (h : k ∈ keysOf m) :
    keysOf (mapSet m k v) = keysOf m := by
  have hs : ((lookupP m k).isSome = true) := (lookupP_isSome_iff m k).2 h
  simp only [mapSet, hs, if_pos]
  simp only [keysOf, List.map_map]
  apply List.map_congr_left
  intro kv _
  by_cases hk : kv.1 = k
  · simp [hk]
  · have hb : (kv.1 == k) = false := by simpa [beq_iff_eq] using hk
    simp [hb, hk]

theorem keysOf_mapSet_not_mem (m : PageMap) (k : String) (v : Page) (h : k ∉ keysOf m) :
    keysOf (mapSet m k v) = keysOf m ++ [k] := by
  have hs : lookupP m k = none := (lookupP_eq_none_iff m k).2 h
  simp [mapSet, hs, keysOf]

theorem lookupP_mapSet_self (m : PageMap) (k : String) (v : Page) :
    lookupP (mapSet m k v) k = some v := by
  unfold mapSet
  by_cases h : k ∈ keysOf m
  · have hs : ((lookupP m k).isSome = true) := (lookupP_isSome_iff m k).2 h
    simp only [hs, if_pos]
    induction m with
    | nil => simp [keysOf] at h
    | cons kv t ih =>
      by_cases hk : kv.1 = k
      · have hb : (kv.1 == k) = true := by simpa [beq_iff_eq] using hk
        simp [lookupP, hb]
      · have hb : (kv.1 == k) = false := by simpa [beq_iff_eq] using hk
        rw [keysOf_cons] at h
        have hmem : k ∈ keysOf t := by
          rcases List.mem_cons.1 h with h1 | h2
          · exact absurd h1.symm hk
          · exact h2
        have hst : ((lookupP t k).isSome = true) := (lookupP_isSome_iff t k).2 hmem
        simp only [List.map_cons, hb, Bool.false_eq_true, if_false, lookupP]
        exact ih hmem hst
  · have hs : lookupP m k = none := (lookupP_eq_none_iff m k).2 h
    simp only [hs, Option.isSome_none, Bool.false_eq_true, if_false]
    induction m with
    | nil => simp [lookupP]
    | cons kv t ih =>
      have hk : kv.1 ≠ k := by
        intro e
        exact h (by rw [keysOf_cons, e]; exact List.mem_cons_self _ _)
      have hb : (kv.1 == k) = false := by simpa [beq_iff_eq] using hk
      have ht : k ∉ keysOf t := by
        intro e
        exact h (by rw [keysOf_cons]; exact List.mem_cons_of_mem _ e)
      have hst : lookupP t k = none := (lookupP_eq_none_iff t k).2 ht
      simp only [List.cons_append, lookupP, hb, Bool.false_eq_true, if_false]
      exact ih ht hst

theorem lookupP_mapSet_ne (m : PageMap) (k k' : String) (v : Page) (h : k' ≠ k) :
    lookupP (mapSet m k v) k' = lookupP m k' := by
  unfold mapSet
  by_cases hs : ((lookupP m k).isSome = true)
  · simp only [hs, if_pos]
    clear hs
    induction m with
    | nil => simp
    | cons kv t ih =>
      by_cases hk : kv.1 = k
      · have hb : (kv.1 == k) = true := by simpa [beq_iff_eq] using hk
        have hb2 : (kv.1 == k') = false := by
          simp only [beq_eq_false_iff_ne, ne_eq, hk]
          exact fun e => h e.symm
        have hb1 : ((k, v).1 == k') = false := by
          simp only [beq_eq_false_iff_ne, ne_eq]
          exact fun e => h e.symm
        simp only [List.map_cons, hb, if_pos, lookupP, hb1, hb2,
          Bool.false_eq_true, if_false]
        exact ih
      · have hb : (kv.1 == k) = false := by simpa [beq_iff_eq] using hk
        by_cases h2' : kv.1 = k'
        · have hb4 : (kv.1 == k') = true := by simpa [beq_iff_eq] using h2'
          simp [lookupP, hb, hb4]
        · have hb4 : (kv.1 == k') = false := by simpa [beq_iff_eq] using h2'
          simp only [List.map_cons, hb, Bool.false_eq_true, if_false, lookupP, hb4]
          exact ih
  · simp only [hs, if_neg, Bool.false_eq_true, not_false_iff]
    have hb1 : ((k, v).1 == k') = false := by
      simp only [beq_eq_false_iff_ne, ne_eq]
      exact fun e => h e.symm
    induction m with
    | nil => simp [lookupP, hb1]
    | cons kv t ih =>
      by_cases h2' : kv.1 = k'
      · have hb4 : (kv.1 == k') = true := by simpa [beq_iff_eq] using h2'
        simp [lookupP, hb4]
      · have hb4 : (kv.1 == k') = false := by simpa [beq_iff_eq] using h2'
        by_cases hkk : kv.1 = k
        · exfalso
          apply hs
          have hb : (kv.1 == k) = true := by simpa [beq_iff_eq] using hkk
          simp [lookupP, hb]
        · have hb : (kv.1 == k) = false := by simpa [beq_iff_eq] using hkk
          have hst : ¬ ((lookupP t k).isSome = true) := by
            intro hcon
            exact hs (by simpa [lookupP, hb] using hcon)
          simp only [List.cons_append, lookupP, hb4]
          exact ih hst

theorem nodup_keysOf_mapSet (m : PageMap) (k : String) (v : Page)
    (h : (keysOf m).Nodup) : (keysOf (mapSet m k v)).Nodup := by
  by_cases hm : k ∈ keysOf m
  · rw [keysOf_mapSet_mem m k v hm]; exact h
  · rw [keysOf_mapSet_not_mem m k v hm]
    simpa [List.nodup_append, hm] using h

theorem coher_mapSet (m : PageMap) (k : String) (v : Page)
    (h : ∀ kv ∈ m, kv.2.id = kv.1) (hv : v.id = k) :
    ∀ kv ∈ mapSet m k v, kv.2.id = kv.1 := by
  intro kv hkv
  unfold mapSet at hkv
  by_cases hs : ((lookupP m k).isSome = true)
  · simp only [hs, if_pos, List.mem_map] at hkv
    obtain ⟨kv0, hkv0, heq⟩ := hkv
    by_cases hk : kv0.1 = k
    · have hb : (kv0.1 == k) = true := by simpa [beq_iff_eq] using hk
      rw [hb] at heq
      simp only [if_pos] at heq
      rw [← heq]
      exact hv
    · have hb : (kv0.1 == k) = false := by simpa [beq_iff_eq] using hk
      rw [hb] at heq
      simp only [Bool.false_eq_true, if_false] at heq
      rw [← heq]
      exact h kv0 hkv0
  · simp only [hs, if_neg, Bool.false_eq_true, not_false_iff, List.mem_append,
      List.mem_singleton] at hkv
    rcases hkv with hkv | hkv
    · exact h kv hkv
    · rw [hkv]; exact hv

theorem foldUpsert_nil (pred : Page → Bool) (m : PageMap) : foldUpsert pred m [] = m := rfl

theorem foldUpsert_cons (pred : Page → Bool) (m : PageMap) (p : Page) (ps : List Page) :
    foldUpsert pred m (p :: ps) =
      foldUpsert pred (if pred p then mapSet m p.id p else m) ps := rfl

theorem contains_iff (l : List String) (a : String) : l.contains a = true ↔ a ∈ l := by
  simp [List.contains, List.elem_iff]

theorem keysOf_foldUpsert (pred : Page → Bool) (ps : List Page) :
    ∀ m : PageMap, keysOf (foldUpsert pred m ps) = keysOf m ++ newKeysP pred ps (keysOf m) := by
  induction ps with
  | nil => intro m; simp [foldUpsert_nil, newKeysP]
  | cons p ps ih =>
    intro m
    rw [foldUpsert_cons]
    by_cases hp : pred p = true
    · rw [if_pos hp]
      by_cases hm : p.id ∈ keysOf m
      · have hc : ((keysOf m).contains p.id) = true := (contains_iff _ _).2 hm
        rw [ih (mapSet m p.id p), keysOf_mapSet_mem m p.id p hm]
        have hrw : newKeysP pred (p :: ps) (keysOf m) = newKeysP pred ps (keysOf m) := by
          simp [newKeysP, hp, hc, hm]
        rw [hrw]
      · have hc : ((keysOf m).contains p.id) = false := by
          cases e : (keysOf m).contains p.id
          · rfl
          · exact absurd ((contains_iff _ _).1 e) hm
        rw [ih (mapSet m p.id p), keysOf_mapSet_not_mem m p.id p hm]
        have hrw : newKeysP pred (p :: ps) (keysOf m) =
            p.id :: newKeysP pred ps (keysOf m ++ [p.id]) := by
          simp [newKeysP, hp, hc, hm]
        rw [hrw]
        simp
    · rw [if_neg hp]
      have hp2 : pred p = false := by
        cases e : pred p
        · rfl
        · exact absurd e hp
      rw [ih m]
      have hrw : newKeysP pred (p :: ps) (keysOf m) = newKeysP pred ps (keysOf m) := by
        simp [newKeysP, hp2]
      rw [hrw]

theorem lookupP_foldUpsert (pred : Page → Bool) (ps : List Page) (k : String) :
    ∀ m : PageMap, lookupP (foldUpsert pred m ps) k =
      match lastP pred ps k with
      | some q => some q
      | none => lookupP m k := by
  induction ps with
  | nil => intro m; simp [foldUpsert_nil, lastP]
  | cons p ps ih =>
    intro m
    rw [foldUpsert_cons, ih]
    cases e : lastP pred ps k with
    | some q => simp [lastP, e]
    | none =>
      simp only [lastP, e]
      by_cases hp : pred p = true
      · rw [if_pos hp]
        by_cases hk : p.id = k
        · have hcond : (pred p && (p.id == k)) = true := by
            rw [hp, (by simpa [beq_iff_eq] using hk : (p.id == k) = true)]
            rfl
          rw [hcond]
          simp only [if_pos]
          rw [← hk]
          exact lookupP_mapSet_self m p.id p
        · have hcond : (pred p && (p.id == k)) = false := by
            rw [hp, (by simpa [beq_iff_eq] using hk : (p.id == k) = false)]
            rfl
          rw [hcond]
          simp only [Bool.false_eq_true, if_false]
          exact lookupP_mapSet_ne m p.id k p (fun e2 => hk e2.symm)
      · rw [if_neg hp]
        have hp2 : pred p = false := by
          cases e2 : pred p
          · rfl
          · exact absurd e2 hp
        have hcond : (pred p && (p.id == k)) = false := by
          rw [hp2]
          rfl
        rw [hcond]
        simp

theorem nodup_newKeysP_append (pred : Page → Bool) (ps : List Page) :
    ∀ seen : List String, seen.Nodup → (seen ++ newKeysP pred ps seen).Nodup := by
  induction ps with
  | nil => intro seen h; simpa [newKeysP] using h
  | cons p ps ih =>
    intro seen h
    by_cases hcond : (pred p && !(seen.contains p.id)) = true
    · have hmem : p.id ∉ seen := by
        have hcond2 := hcond
        rw [Bool.and_eq_true] at hcond2
        rcases hcond2 with ⟨hdum, hnc⟩
        intro hin
        rw [(contains_iff seen p.id).2 hin] at hnc
        simp at hnc
      have h2 : (seen ++ [p.id]).Nodup := by
        simp [List.nodup_append, h, hmem]
      have := ih (seen ++ [p.id]) h2
      simp only [newKeysP, hcond, if_pos]
      simpa [List.append_assoc] using this
    · simp only [newKeysP, hcond, Bool.false_eq_true, if_false]
      exact ih seen h

theorem coher_foldUpsert (pred : Page → Bool) (ps : List Page) :
    ∀ m : PageMap, (∀ kv ∈ m, kv.2.id = kv.1) →
      ∀ kv ∈ foldUpsert pred m ps, kv.2.id = kv.1 := by
  induction ps with
  | nil => intro m h; simpa [foldUpsert_nil] using h
  | cons p ps ih =>
    intro m h
    rw [foldUpsert_cons]
    by_cases hp : pred p = true
    · rw [hp, if_pos rfl]
      exact ih (mapSet m p.id p) (coher_mapSet m p.id p h rfl)
    · have hp' : pred p = false := by
        cases e : pred p
        · rfl
        · exact absurd e hp
      rw [hp', if_neg (by simp)]
      exact ih m h

theorem coher_mapFromPages (ps : List Page) :
    ∀ kv ∈ mapFromPages ps, kv.2.id = kv.1 := by
  have : mapFromPages ps = foldUpsert (fun _ => true) [] ps := rfl
  rw [this]
  exact coher_foldUpsert _ ps [] (by intro kv h; cases h)

theorem nodup_keysOf_foldUpsert (pred : Page → Bool) (ps : List Page) (m : PageMap)
    (h : (keysOf m).Nodup) : (keysOf (foldUpsert pred m ps)).Nodup := by
  rw [keysOf_foldUpsert]
  exact nodup_newKeysP_append pred ps (keysOf m) h

theorem nodup_keysOf_mapFromPages (ps : List Page) :
    (keysOf (mapFromPages ps)).Nodup := by
  have : mapFromPages ps = foldUpsert (fun _ => true) [] ps := rfl
  rw [this]
  exact nodup_keysOf_foldUpsert _ ps [] (by simp [keysOf])

theorem lastP_eq_none (pred : Page → Bool) (ps : List Page) (k : String)
    (h : ∀ q ∈ ps, pred q = true → q.id ≠ k) : lastP pred ps k = none := by
  induction ps with
  | nil => rfl
  | cons p ps ih =>
    have h1 := ih (fun q hq => h q (List.mem_cons_of_mem _ hq))
    simp only [lastP, h1]
    by_cases hp : pred p = true
    · have hb : (p.id == k) = false := by
        simpa [beq_iff_eq] using h p (List.mem_cons_self _ _) hp
      rw [hp, hb]
      simp
    · have hp2 : pred p = false := by
        cases e : pred p
        · rfl
        · exact absurd e hp
      rw [hp2]
      simp

theorem lastP_mem (pred : Page → Bool) (ps : List Page) (k : String) (q : Page)
    (h : lastP pred ps k = some q) : q ∈ ps ∧ pred q = true ∧ q.id = k := by
  induction ps with
  | nil => cases h
  | cons p ps ih =>
    simp only [lastP] at h
    cases e : lastP pred ps k with
    | some r =>
      rw [e] at h
      cases h
      obtain ⟨h1, h2, h3⟩ := ih e
      exact ⟨List.mem_cons_of_mem _ h1, h2, h3⟩
    | none =>
      rw [e] at h
      by_cases hc : (pred p && (p.id == k)) = true
      · rw [if_pos hc] at h
        cases h
        rw [Bool.and_eq_true] at hc
        exact ⟨List.mem_cons_self _ _, hc.1, by simpa [beq_iff_eq] using hc.2⟩
      · rw [if_neg hc] at h
        cases h

theorem lastP_isSome_of_mem (pred : Page → Bool) (ps : List Page) (p : Page)
    (h : p ∈ ps) (hp : pred p = true) : (lastP pred ps p.id).isSome = true := by
  induction ps with
  | nil => cases h
  | cons r ps ih =>
    simp only [lastP]
    cases e : lastP pred ps p.id with
    | some q => simp
    | none =>
      rcases List.mem_cons.1 h with heq | hmem
      · subst heq
        have hb : (p.id == p.id) = true := by simp
        rw [hp, hb]
        simp
      · have hcon := ih hmem
        rw [e] at hcon
        simp at hcon

theorem newKeysP_eq_nil (pred : Page → Bool) (ps : List Page) :
    ∀ seen : List String, (∀ p ∈ ps, pred p = true → p.id ∈ seen) →
      newKeysP pred ps seen = [] := by
  induction ps with
  | nil => intro seen _; rfl
  | cons p ps ih =>
    intro seen h
    by_cases hp : pred p = true
    · have hc : (seen.contains p.id) = true :=
        (contains_iff _ _).2 (h p (List.mem_cons_self _ _) hp)
      have hcond : (pred p && !(seen.contains p.id)) = false := by
        rw [hp, hc]
        rfl
      simp only [newKeysP, hcond, Bool.false_eq_true, if_false]
      exact ih seen (fun q hq hpq => h q (List.mem_cons_of_mem _ hq) hpq)
    · have hp2 : pred p = false := by
        cases e : pred p
        · rfl
        · exact absurd e hp
      have hcond : (pred p && !(seen.contains p.id)) = false := by
        rw [hp2]
        rfl
      simp only [newKeysP, hcond, Bool.false_eq_true, if_false]
      exact ih seen (fun q hq hpq => h q (List.mem_cons_of_mem _ hq) hpq)

theorem id_mem_seen_newKeysP (pred : Page → Bool) (ps : List Page) :
    ∀ seen : List String, ∀ p ∈ ps, pred p = true →
      p.id ∈ seen ++ newKeysP pred ps seen := by
  induction ps with
  | nil => intro seen p h; cases h
  | cons q ps ih =>
    intro seen p hmem hp
    rcases List.mem_cons.1 hmem with heq | hmem2
    · subst heq
      by_cases hcond : (pred p && !(seen.contains p.id)) = true
      · simp only [newKeysP, if_pos hcond]
        exact List.mem_append.2 (Or.inr (List.mem_cons_self _ _))
      · have hc : (seen.contains p.id) = true := by
          cases e : seen.contains p.id
          · exfalso
            apply hcond
            rw [hp, e]
            rfl
          · rfl
        exact List.mem_append.2 (Or.inl ((contains_iff _ _).1 hc))
    · by_cases hcond : (pred q && !(seen.contains q.id)) = true
      · simp only [newKeysP, if_pos hcond]
        have hres := ih (seen ++ [q.id]) p hmem2 hp
        simp only [List.append_assoc, List.singleton_append] at hres
        exact hres
      · simp only [newKeysP, if_neg hcond]
        exact ih seen p hmem2 hp

theorem newKeysP_true_eq (ps : List Page) :
    ∀ seen : List String, (ps.map Page.id).Nodup → (∀ p ∈ ps, p.id ∉ seen) →
      newKeysP (fun _ => true) ps seen = ps.map Page.id := by
  induction ps with
  | nil => intro seen _ _; rfl
  | cons p ps ih =>
    intro seen hnd hdisj
    have hc : (seen.contains p.id) = false := by
      cases e : seen.contains p.id
      · rfl
      · exact absurd ((contains_iff _ _).1 e) (hdisj p (List.mem_cons_self _ _))
    have hcond : (((fun _ => true) p : Bool) && !(seen.contains p.id)) = true := by
      rw [hc]
      rfl
    simp only [newKeysP, if_pos hcond, List.map_cons]
    congr 1
    have hnd2 : (ps.map Page.id).Nodup := by
      rw [List.map_cons] at hnd
      exact (List.nodup_cons.1 hnd).2
    have hhead : p.id ∉ ps.map Page.id := by
      rw [List.map_cons] at hnd
      exact (List.nodup_cons.1 hnd).1
    apply ih (seen ++ [p.id]) hnd2
    intro q hq
    simp only [List.mem_append, List.mem_singleton]
    rintro (h1 | h2)
    · exact hdisj q (List.mem_cons_of_mem _ hq) h1
    · exact hhead (h2 ▸ List.mem_map_of_mem Page.id hq)

theorem keysOf_append (m m2 : PageMap) : keysOf (m ++ m2) = keysOf m ++ keysOf m2 := by
  simp [keysOf]

theorem pagemap_ext (m : PageMap) : ∀ m' : PageMap, keysOf m = keysOf m' →
    (keysOf m).Nodup → (∀ k, lookupP m k = lookupP m' k) → m = m' := by
  induction m with
  | nil =>
    intro m' hk _ _
    cases m' with
    | nil => rfl
    | cons kv t => simp [keysOf] at hk
  | cons kv t ih =>
    intro m' hk hnd hl
    cases m' with
    | nil => simp [keysOf] at hk
    | cons kv2 t2 =>
      rw [keysOf_cons, keysOf_cons] at hk
      have hpairs := List.cons.inj hk
      have h1 : kv.1 = kv2.1 := hpairs.1
      have h2 : keysOf t = keysOf t2 := hpairs.2
      rw [keysOf_cons] at hnd
      have hndt : (keysOf t).Nodup := (List.nodup_cons.1 hnd).2
      have hnotin : kv.1 ∉ keysOf t := (List.nodup_cons.1 hnd).1
      have hv : kv.2 = kv2.2 := by
        have hlk := hl kv.1
        have e1 : (kv.1 == kv.1) = true := by simp
        have e2 : (kv2.1 == kv.1) = true := by simp [h1]
        simp only [lookupP, e1, e2, if_pos] at hlk
        exact Option.some.inj hlk
      have ht : t = t2 := by
        apply ih t2 h2 hndt
        intro k
        by_cases hkk : k = kv.1
        · rw [hkk]
          have hn1 : lookupP t kv.1 = none := (lookupP_eq_none_iff t kv.1).2 hnotin
          have hn2 : lookupP t2 kv.1 = none := by
            apply (lookupP_eq_none_iff t2 kv.1).2
            rw [← h2]
            exact hnotin
          rw [hn1, hn2]
        · have hlk := hl k
          have e1 : (kv.1 == k) = false := by
            simp only [beq_eq_false_iff_ne, ne_eq]
            exact fun e => hkk e.symm
          have e2 : (kv2.1 == k) = false := by rw [← h1]; exact e1
          simpa [lookupP, e1, e2] using hlk
      have hkv : kv = kv2 := Prod.ext h1 hv
      rw [hkv, ht]

theorem foldUpsert_true_append (m2 : PageMap) : ∀ acc : PageMap,
    (keysOf m2).Nodup → (∀ kv ∈ m2, kv.2.id = kv.1) →
    (∀ k ∈ keysOf m2, k ∉ keysOf acc) →
    foldUpsert (fun _ => true) acc (valuesOf m2) = acc ++ m2 := by
  induction m2 with
  | nil => intro acc _ _ _; simp [valuesOf, foldUpsert_nil]
  | cons kv t ih =>
    intro acc hnd hco hdisj
    have hid : kv.2.id = kv.1 := hco kv (List.mem_cons_self _ _)
    have hv : valuesOf (kv :: t) = kv.2 :: valuesOf t := rfl
    rw [hv, foldUpsert_cons, if_pos rfl]
    have hnotin : kv.2.id ∉ keysOf acc := by
      rw [hid]
      exact hdisj kv.1 (by rw [keysOf_cons]; exact List.mem_cons_self _ _)
    have hmap : mapSet acc kv.2.id kv.2 = acc ++ [(kv.2.id, kv.2)] := by
      have hn : lookupP acc kv.2.id = none := (lookupP_eq_none_iff acc kv.2.id).2 hnotin
      simp [mapSet, hn]
    rw [hmap]
    have hpair : ((kv.2.id : String), kv.2) = kv := by
      have : kv = (kv.1, kv.2) := rfl
      rw [this]
      rw [hid]
    rw [hpair]
    rw [keysOf_cons] at hnd
    have hres := ih (acc ++ [kv]) (List.nodup_cons.1 hnd).2
      (fun kv2 h => hco kv2 (List.mem_cons_of_mem _ h))
      (by
        intro k hkt
        rw [keysOf_append]
        simp only [List.mem_append]
        rintro (ha | hb)
        · exact hdisj k (by rw [keysOf_cons]; exact List.mem_cons_of_mem _ hkt) ha
        · have : k = kv.1 := by simpa [keysOf] using hb
          exact (List.nodup_cons.1 hnd).1 (this ▸ hkt))
    rw [hres]
    simp

theorem mapFromPages_valuesOf (m : PageMap) (hnd : (keysOf m).Nodup)
    (hco : ∀ kv ∈ m, kv.2.id = kv.1) : mapFromPages (valuesOf m) = m := by
  have h0 : mapFromPages (valuesOf m) = foldUpsert (fun _ => true) [] (valuesOf m) := rfl
  rw [h0, foldUpsert_true_append m [] hnd hco (by intro k _; simp [keysOf])]
  simp

theorem mergePages_eq_valuesOf (cur inc : List Page) :
    mergePages cur inc = valuesOf (foldUpsert isValidPageRec (mapFromPages cur) inc) := rfl

/-- C5: merging the same incoming batch twice is the same as merging it once,
including the order of the resulting pages: mergePages (mergePages A B) B =
mergePages A B. -/
theorem mergePages_idempotent (A B : List Page) :
    mergePages (mergePages A B) B = mergePages A B := by
  have hnd1 : (keysOf (mapFromPages A)).Nodup := nodup_keysOf_mapFromPages A
  have hnd2 : (keysOf (foldUpsert isValidPageRec (mapFromPages A) B)).Nodup :=
    nodup_keysOf_foldUpsert _ B (mapFromPages A) hnd1
  have hco2 : ∀ kv ∈ foldUpsert isValidPageRec (mapFromPages A) B, kv.2.id = kv.1 :=
    coher_foldUpsert _ B (mapFromPages A) (coher_mapFromPages A)
  rw [mergePages_eq_valuesOf A B, mergePages_eq_valuesOf _ B,
    mapFromPages_valuesOf _ hnd2 hco2]
  congr 1
  apply pagemap_ext
  · rw [keysOf_foldUpsert]
    have hnil : newKeysP isValidPageRec B
        (keysOf (foldUpsert isValidPageRec (mapFromPages A) B)) = [] := by
      apply newKeysP_eq_nil
      intro p hp hvp
      rw [keysOf_foldUpsert]
      exact id_mem_seen_newKeysP isValidPageRec B (keysOf (mapFromPages A)) p hp hvp
    rw [hnil]
    simp
  · exact nodup_keysOf_foldUpsert _ B _ hnd2
  · intro k
    rw [lookupP_foldUpsert, lookupP_foldUpsert]
    cases e : lastP isValidPageRec B k with
    | some q => rfl
    | none => rfl

theorem valuesOf_map_id (m : PageMap) (hco : ∀ kv ∈ m, kv.2.id = kv.1) :
    (valuesOf m).map Page.id = keysOf m := by
  induction m with
  | nil => rfl
  | cons kv t ih =>
    have hid : kv.2.id = kv.1 := hco kv (List.mem_cons_self _ _)
    have hv : valuesOf (kv :: t) = kv.2 :: valuesOf t := rfl
    rw [hv, keysOf_cons, List.map_cons, hid,
      ih (fun kv2 h => hco kv2 (List.mem_cons_of_mem _ h))]

theorem find?_valuesOf (m : PageMap) (k : String) (hco : ∀ kv ∈ m, kv.2.id = kv.1) :
    (valuesOf m).find? (fun q => q.id == k) = lookupP m k := by
  induction m with
  | nil => rfl
  | cons kv t ih =>
    have hid : kv.2.id = kv.1 := hco kv (List.mem_cons_self _ _)
    have hv : valuesOf (kv :: t) = kv.2 :: valuesOf t := rfl
    rw [hv]
    by_cases hk : kv.1 = k
    · have hb : (kv.2.id == k) = true := by simp [hid, hk]
      have hb2 : (kv.1 == k) = true := by simp [hk]
      simp only [List.find?, hb, lookupP, hb2, if_pos]
    · have hb : (kv.2.id == k) = false := by
        simp only [hid, beq_eq_false_iff_ne, ne_eq]
        exact hk
      have hb2 : (kv.1 == k) = false := by
        simp only [beq_eq_false_iff_ne, ne_eq]
        exact hk
      simp only [List.find?, hb, lookupP, hb2, Bool.false_eq_true, if_false]
      exact ih (fun kv2 h => hco kv2 (List.mem_cons_of_mem _ h))

theorem keysOf_mapFromPages_nodup (cur : List Page) (h : (cur.map Page.id).Nodup) :
    keysOf (mapFromPages cur) = cur.map Page.id := by
  have h0 : mapFromPages cur = foldUpsert (fun _ => true) [] cur := rfl
  rw [h0, keysOf_foldUpsert]
  have hke : keysOf ([] : PageMap) = [] := rfl
  rw [hke]
  simp only [List.nil_append]
  exact newKeysP_true_eq cur [] h (by intro p _; simp)

theorem lastP_true_nodup (cur : List Page) (p : Page) (h : p ∈ cur)
    (hnd : (cur.map Page.id).Nodup) : lastP (fun _ => true) cur p.id = some p := by
  induction cur with
  | nil => cases h
  | cons q t ih =>
    rw [List.map_cons] at hnd
    simp only [lastP]
    rcases List.mem_cons.1 h with heq | hmem
    · subst heq
      have hn : lastP (fun _ => true) t p.id = none := by
        apply lastP_eq_none
        intro r hr _ he
        exact (List.nodup_cons.1 hnd).1 (he ▸ List.mem_map_of_mem Page.id hr)
      rw [hn]
      have hb : (p.id == p.id) = true := by simp
      rw [hb]
      simp
    · rw [ih hmem (List.nodup_cons.1 hnd).2]

theorem lookupP_mapFromPages (cur : List Page) (p : Page) (h : p ∈ cur)
    (hnd : (cur.map Page.id).Nodup) : lookupP (mapFromPages cur) p.id = some p := by
  have h0 : mapFromPages cur = foldUpsert (fun _ => true) [] cur := rfl
  rw [h0, lookupP_foldUpsert, lastP_true_nodup cur p h hnd]

theorem pagemap_get?_eq (m : PageMap) : ∀ i : Nat, ∀ k : String, ∀ v : Page,
    (keysOf m)[i]? = some k → (keysOf m).Nodup → lookupP m k = some v →
    m[i]? = some (k, v) := by
  induction m with
  | nil => intro i k v h; simp [keysOf] at h
  | cons kv t ih =>
    intro i k v hvk hnd hl
    rw [keysOf_cons] at hvk hnd
    cases i with
    | zero =>
      simp only [List.getElem?_cons_zero, Option.some.injEq] at hvk
      have hb : (kv.1 == k) = true := by simp [hvk]
      simp only [lookupP, hb, if_pos, Option.some.injEq] at hl
      simp only [List.getElem?_cons_zero, Option.some.injEq]
      have : kv = (kv.1, kv.2) := rfl
      rw [this, hvk, hl]
    | succ n =>
      simp only [List.getElem?_cons_succ] at hvk
      have hmem : k ∈ keysOf t := by
        have := List.getElem?_eq_some_iff.1 hvk
        obtain ⟨hlt, hget⟩ := this
        exact hget ▸ List.getElem_mem _
      have hkne : kv.1 ≠ k := by
        intro e
        exact (List.nodup_cons.1 hnd).1 (e ▸ hmem)
      have hb : (kv.1 == k) = false := by
        simp only [beq_eq_false_iff_ne, ne_eq]
        exact hkne
      simp only [lookupP, hb, Bool.false_eq_true, if_false] at hl
      simp only [List.getElem?_cons_succ]
      exact ih n k v hvk (List.nodup_cons.1 hnd).2 hl

theorem valuesOf_getElem? (m : PageMap) (i : Nat) :
    (valuesOf m)[i]? = (m[i]?).map (fun kv => kv.2) := by
  simp [valuesOf, List.getElem?_map]

/-- Structured diagnostics attached to a model message (src/types.ts). -/
structure Diagnostics where
  validation : List String
  repairs : List String
  assumptions : List String
  deriving DecidableEq, Repr

/-- A chat role (src/types.ts). -/
inductive Role where
  | user
  | model
  deriving DecidableEq, Repr

/-- The optional kind tag of a chat message (src/types.ts). -/
inductive MessageType where
  | text
  | codePreview
  deriving DecidableEq, Repr

/-- Optional structured metadata of a chat message (src/types.ts). -/
structure MessageMetadata where
  diagnostics : Option Diagnostics
  pages : Option (List Page)
  suggestions : Option (List String)
  deriving DecidableEq, Repr

/-- A chat message (src/types.ts). -/
structure Message where
  role : Role
  content : String
  type : Option MessageType
  metadata : Option MessageMetadata
  deriving DecidableEq, Repr

/-- The parsed response of the generation backend as the App consumes it
(src/types.ts, interface VibeResponse); its page list is untrusted, hence a
list of arbitrary candidates. -/
structure VibeResponse where
  diagnostics : Option Diagnostics
  chat_response : String
  suggestions : List String
  pages : List Candidate
  deriving DecidableEq, Repr

/-- Recover the well-typed page record of a candidate whose three fields are
strings. -/
def candToPage : Candidate → Option Page
  | .obj (.str i) (.str t) (.str c) => some { id := i, title := t, content := c }
  | _ => none

/-- response.pages.filter(isValidPage) from handleSendMessage line 51, with the
survivors read back as page records (possible exactly because they passed the
validation). -/
def validPagesOf (cs : List Candidate) : List Page :=
  (cs.filter isValidPage).filterMap candToPage

/-- The App component state (src/App.tsx lines 36 to 39): chat transcript,
current page list (null before the first generation), loading flag, error
banner. -/
structure AppState where
  messages : List Message
  latestPages : Option (List Page)
  isLoading : Bool
  error : Option String
  deriving DecidableEq, Repr

/-- The outcome of the awaited generateVibe call: a parsed response, or a
thrown error. -/
inductive GenResult where
  | ok (resp : VibeResponse)
  | err
  deriving DecidableEq, Repr

/-- The error banner text set by handleSendMessage on failure. -/
def failBanner : String :=
  "Failed to generate design. Please check your API key or try again."

/-- The generic apologetic model message appended by handleSendMessage on
failure. -/
def failChat : String :=
  "I encountered an error while trying to visualize that. Could you try rephrasing?"

/-- One sendMessage turn from src/App.tsx (handleSendMessage, lines 41 to 84),
as a function of the state before the turn and the generation outcome: append
the user message and clear the error; on success merge the validated pages and
append a model message carrying the merged snapshot; on failure set the error
banner and append a generic apologetic model message, leaving the page state
untouched. -/
def handleSendMessage (st : AppState) (userPrompt : String) (result : GenResult) : AppState :=
  let st1 : AppState := { st with
    messages := st.messages ++
      [{ role := .user, content := userPrompt, type := none, metadata := none }],
    isLoading := true,
    error := none }
  match result with
  | .ok resp =>
    let validPages := validPagesOf resp.pages
    let updatedPages := mergePages (st1.latestPages.getD []) validPages
    let botMessage : Message :=
      { role := .model,
        content := resp.chat_response,
        type := some .codePreview,
        metadata := some
          { diagnostics := resp.diagnostics,
            pages := some updatedPages,
            suggestions := some resp.suggestions } }
    { st1 with
      messages := st1.messages ++ [botMessage],
      latestPages := some updatedPages,
      isLoading := false }
  | .err =>
    { st1 with
      error := some failBanner,
      messages := st1.messages ++
        [{ role := .model, content := failChat, type := none, metadata := none }],
      isLoading := false }

/-- handleRestoreVersion from src/App.tsx lines 92 to 94: replace the page set
wholesale with a recorded snapshot. -/
def handleRestoreVersion (st : AppState) (pages : List Page) : AppState :=
  { st with latestPages := some pages }

/-- The page-content update inside handleUpdatePage (src/App.tsx lines 99 to
101): replace the content of the pages whose id matches, in place. -/
def updatePageContent (pages : List Page) (pageId newContent : String) : List Page :=
  pages.map (fun p => if p.id == pageId then { p with content := newContent } else p)

/-- handleUpdatePage from src/App.tsx lines 96 to 103: no-op when no page list
exists, otherwise update the matching page content in place. -/
def handleUpdatePage (st : AppState) (pageId newContent : String) : AppState :=
  match st.latestPages with
  | none => st
  | some pages =>
    { st with latestPages := some (updatePageContent pages pageId newContent) }

/-- C6: when the generation call throws, handleSendMessage leaves the page
state exactly as it was, appends the user prompt and the generic apologetic
model message to the transcript, and sets the error banner. -/
theorem handleSendMessage_err_frame (st : AppState) (userPrompt : String) :
    (handleSendMessage st userPrompt .err).latestPages = st.latestPages ∧
    (handleSendMessage st userPrompt .err).messages =
      st.messages ++
        [{ role := .user, content := userPrompt, type := none, metadata := none },
         { role := .model, content := failChat, type := none, metadata := none }] ∧
    (handleSendMessage st userPrompt .err).error = some failBanner := by
  refine ⟨rfl, ?_, rfl⟩
  simp [handleSendMessage]

/-- C9: updatePageContent replaces exactly the content field of the pages
whose id matches, in their original positions: the length is preserved, every
non-matching page is returned unchanged, a matching page keeps its id and
title, and handleUpdatePage leaves the chat transcript and the error banner
unchanged. -/
theorem updatePageContent_frame (pages : List Page) (pageId newContent : String) :
    ((updatePageContent pages pageId newContent).length = pages.length) ∧
    (∀ i : Nat, (updatePageContent pages pageId newContent)[i]? =
      (pages[i]?).map (fun p =>
        if p.id = pageId then { id := p.id, title := p.title, content := newContent }
        else p)) ∧
    (∀ st : AppState, (handleUpdatePage st pageId newContent).messages = st.messages ∧
      (handleUpdatePage st pageId newContent).error = st.error) := by
  refine ⟨by simp [updatePageContent], ?_, ?_⟩
  · intro i
    simp only [updatePageContent, List.getElem?_map]
    cases pages[i]? with
    | none => rfl
    | some p =>
      simp only [Option.map_some']
      by_cases h : p.id = pageId
      · have hb : (p.id == pageId) = true := by simp [h]
        simp [hb, h]
      · have hb : (p.id == pageId) = false := by
          simp only [beq_eq_false_iff_ne, ne_eq]
          exact h
        simp [hb, h]
  · intro st
    cases e : st.latestPages with
    | none => simp [handleUpdatePage, e]
    | some ps => simp [handleUpdatePage, e]

/-- C8: id uniqueness is an invariant of the page list: mergePages,
updatePageContent and handleRestoreVersion each produce a page list with
pairwise-distinct ids when their current input (respectively the restored
snapshot) has pairwise-distinct ids. -/
theorem pageId_nodup_invariant (cur inc ps snap : List Page) (pid nc : String)
    (st : AppState) (hcur : (cur.map Page.id).Nodup) (hps : (ps.map Page.id).Nodup)
    (hsnap : (snap.map Page.id).Nodup) :
    ((mergePages cur inc).map Page.id).Nodup ∧
    ((updatePageContent ps pid nc).map Page.id).Nodup ∧
    (∀ pages, (handleRestoreVersion st snap).latestPages = some pages →
      (pages.map Page.id).Nodup) := by
  refine ⟨?_, ?_, ?_⟩
  · rw [mergePages_eq_valuesOf,
      valuesOf_map_id _ (coher_foldUpsert _ inc _ (coher_mapFromPages cur))]
    exact nodup_keysOf_foldUpsert _ inc _ (nodup_keysOf_mapFromPages cur)
  · have hsame : (updatePageContent ps pid nc).map Page.id = ps.map Page.id := by
      simp only [updatePageContent, List.map_map]
      apply List.map_congr_left
      intro p _
      by_cases h : (p.id == pid) = true
      · simp [Function.comp, h]
      · simp only [Bool.not_eq_true] at h
        simp [Function.comp, h]
    rw [hsame]
    exact hps
  · intro pages h
    have : some snap = some pages := h
    cases this
    exact hsnap

/-- First of two incoming pages that share the id a (merge counterexamples). -/
def pgA1 : Page := { id := "a", title := "t1", content := "c1" }

/-- Second of two incoming pages that share the id a (merge counterexamples). -/
def pgA2 : Page := { id := "a", title := "t2", content := "c2" }

/-- C3 counterexample: the claim quantifies over every current and incoming
page list, but with duplicate ids inside one incoming batch the earlier valid
incoming page does not appear in the merge result with its own content (the
later entry wins), and with duplicate ids inside the current list a current
page absent from the incoming batch is not retained (so the claim as stated is
false at current = [], incoming = [pgA1, pgA2] and at current = [pgA1, pgA2],
incoming = []). -/
theorem mergePages_claim_counterexample :
    isValidPageRec pgA1 = true ∧
    pgA1 ∈ [pgA1, pgA2] ∧
    (∀ q ∈ mergePages [] [pgA1, pgA2], ¬(q.id = pgA1.id ∧ q.content = pgA1.content)) ∧
    mergePages [pgA1, pgA2] [] = [pgA2] := by
  decide

/-- C3 (amended): for a current list with pairwise-distinct ids, mergePages
retains every current id; the merge result lists the current ids in their
original positions followed by the genuinely new valid incoming ids in
first-occurrence order; every valid incoming page appears in the result under
its id, with the content of the last valid occurrence of that id in the batch
(later entries in one batch win); and a current page whose id is touched by no
valid incoming page is retained unchanged at its original position (no page is
ever deleted). -/
theorem mergePages_spec (cur inc : List Page) (hnd : (cur.map Page.id).Nodup) :
    ((mergePages cur inc).map Page.id =
      cur.map Page.id ++ newKeysP isValidPageRec inc (cur.map Page.id)) ∧
    (∀ p ∈ cur, ∃ q ∈ mergePages cur inc, q.id = p.id) ∧
    (∀ p ∈ inc, isValidPageRec p = true →
      (mergePages cur inc).find? (fun q => q.id == p.id) = lastP isValidPageRec inc p.id) ∧
    (∀ i : Nat, ∀ p : Page, cur[i]? = some p →
      (∀ q ∈ inc, isValidPageRec q = true → q.id ≠ p.id) →
      (mergePages cur inc)[i]? = some p) := by
  have hco : ∀ kv ∈ foldUpsert isValidPageRec (mapFromPages cur) inc, kv.2.id = kv.1 :=
    coher_foldUpsert _ inc _ (coher_mapFromPages cur)
  have hkeys : keysOf (foldUpsert isValidPageRec (mapFromPages cur) inc) =
      cur.map Page.id ++ newKeysP isValidPageRec inc (cur.map Page.id) := by
    rw [keysOf_foldUpsert, keysOf_mapFromPages_nodup cur hnd]
  have hids : (mergePages cur inc).map Page.id =
      cur.map Page.id ++ newKeysP isValidPageRec inc (cur.map Page.id) := by
    rw [mergePages_eq_valuesOf, valuesOf_map_id _ hco, hkeys]
  refine ⟨hids, ?_, ?_, ?_⟩
  · intro p hp
    have h1 : p.id ∈ (mergePages cur inc).map Page.id := by
      rw [hids]
      exact List.mem_append.2 (Or.inl (List.mem_map_of_mem Page.id hp))
    obtain ⟨q, hq, hqe⟩ := List.mem_map.1 h1
    exact ⟨q, hq, hqe⟩
  · intro p hp hv
    rw [mergePages_eq_valuesOf, find?_valuesOf _ _ hco, lookupP_foldUpsert]
    cases e : lastP isValidPageRec inc p.id with
    | some q => rfl
    | none =>
      have := lastP_isSome_of_mem isValidPageRec inc p hp hv
      rw [e] at this
      simp at this
  · intro i p hip hnone
    have hmem : p ∈ cur := by
      obtain ⟨hlt, hget⟩ := List.getElem?_eq_some_iff.1 hip
      exact hget ▸ List.getElem_mem _
    have hilt : i < cur.length := (List.getElem?_eq_some_iff.1 hip).1
    have hk : (cur.map Page.id)[i]? = some p.id := by
      rw [List.getElem?_map, hip]
      rfl
    have hkeysi : (keysOf (foldUpsert isValidPageRec (mapFromPages cur) inc))[i]? =
        some p.id := by
      rw [hkeys, List.getElem?_append_left (by simpa using hilt)]
      exact hk
    have hlast : lastP isValidPageRec inc p.id = none := lastP_eq_none _ _ _ hnone
    have hlook : lookupP (foldUpsert isValidPageRec (mapFromPages cur) inc) p.id =
        some p := by
      rw [lookupP_foldUpsert, hlast]
      exact lookupP_mapFromPages cur p hmem hnd
    have hndk : (keysOf (foldUpsert isValidPageRec (mapFromPages cur) inc)).Nodup :=
      nodup_keysOf_foldUpsert _ inc _ (nodup_keysOf_mapFromPages cur)
    have hentry := pagemap_get?_eq _ i p.id p hkeysi hndk hlook
    rw [mergePages_eq_valuesOf, valuesOf_getElem?, hentry]
    rfl

/-- A cross-frame message as handleMessage observes it: the three fields the
handler reads, each either a string or anything else (a non-string value never
equals the compared string, and a missing field reads as undefined, so both are
folded into none; an empty pageId string is falsy and kept explicit). -/
structure NavMessage where
  type : Option String
  token : Option String
  pageId : Option String
  deriving DecidableEq, Repr

/-- The setActivePageId call performed by the message handler of
src/components/PreviewArea.tsx (handleMessage, lines 44 to 55), if any: the
navigation callback fires with a target page id exactly when the type is
NAVIGATE_TO_PAGE, the token equals the session token, the pageId is truthy and
a page with that id exists. -/
def handleMessageNav (pages : List Page) (navToken : String) (msg : NavMessage) :
    Option String :=
  if msg.type ≠ some "NAVIGATE_TO_PAGE" then none
  else if msg.token ≠ some navToken then none
  else
    match msg.pageId with
    | none => none
    | some pid =>
      if pid = "" then none
      else
        match pages.find? (fun p => p.id == pid) with
        | some targetPage => some targetPage.id
        | none => none

/-- The active page id after handleMessage processes one message. -/
def handleMessage (pages : List Page) (navToken : String) (activePageId : Option String)
    (msg : NavMessage) : Option String :=
  match handleMessageNav pages navToken msg with
  | some pid => some pid
  | none => activePageId

/-- C1: a message whose token differs from the session token never changes the
active page id, whatever pageId it carries; and the navigation callback fires
only when the message type is NAVIGATE_TO_PAGE, the token matches, and the
pageId resolves to the id of a page in the current page list. -/
theorem handleMessage_token_guard (pages : List Page) (navToken : String)
    (activePageId : Option String) (msg : NavMessage) :
    (msg.token ≠ some navToken →
      handleMessage pages navToken activePageId msg = activePageId) ∧
    (∀ pid : String, handleMessageNav pages navToken msg = some pid →
      msg.token = some navToken ∧ msg.type = some "NAVIGATE_TO_PAGE" ∧
      msg.pageId = some pid ∧ ∃ p ∈ pages, p.id = pid) := by
  constructor
  · intro h
    unfold handleMessage handleMessageNav
    by_cases ht : msg.type ≠ some "NAVIGATE_TO_PAGE"
    · rw [if_pos ht]
    · rw [if_neg ht, if_pos h]
  · intro pid h
    unfold handleMessageNav at h
    by_cases ht : msg.type ≠ some "NAVIGATE_TO_PAGE"
    · rw [if_pos ht] at h
      cases h
    · rw [if_neg ht] at h
      push_neg at ht
      by_cases htok : msg.token ≠ some navToken
      · rw [if_pos htok] at h
        cases h
      · rw [if_neg htok] at h
        push_neg at htok
        cases e : msg.pageId with
        | none =>
          rw [e] at h
          cases h
        | some pid0 =>
          rw [e] at h
          have h2 : (if pid0 = "" then none
              else match pages.find? (fun p => p.id == pid0) with
                | some targetPage => some targetPage.id
                | none => none) = some pid := h
          by_cases hemp : pid0 = ""
          · rw [if_pos hemp] at h2
            cases h2
          · rw [if_neg hemp] at h2
            cases ef : pages.find? (fun p => p.id == pid0) with
            | none =>
              rw [ef] at h2
              cases h2
            | some tp =>
              rw [ef] at h2
              have h3 : some tp.id = some pid := h2
              cases h3
              have hfp := List.find?_some ef
              have hideq : tp.id = pid0 := by simpa [beq_iff_eq] using hfp
              refine ⟨htok, ht, ?_, tp, List.mem_of_find?_eq_some ef, rfl⟩
              exact congrArg some hideq.symm

/-- A file entry of the parsed backend response (result.files in
generateVibe). -/
structure GenFile where
  filename : String
  content : String
  deriving DecidableEq, Repr

/-- The mapping from the parsed response file list to pages inside generateVibe
(src/services/geminiService.ts lines 210 to 214, identically in
src/unnamed/part_001): every file becomes a page with the fixed id index and
the fixed title App. -/
def generateVibePages (files : List GenFile) : List Page :=
  files.map (fun f => { id := "index", title := "App", content := f.content })

/-- C10: every page produced from a successfully parsed backend response has
id index and title App, so a single generation turn can contribute at most one
distinct page id to the project, regardless of how many files the backend
returns. -/
theorem generateVibePages_single_id (files : List GenFile) :
    (∀ p ∈ generateVibePages files, p.id = "index" ∧ p.title = "App") ∧
    (∀ p ∈ generateVibePages files, ∀ q ∈ generateVibePages files, p.id = q.id) := by
  constructor
  · intro p hp
    obtain ⟨f, hf, rfl⟩ := List.mem_map.1 hp
    exact ⟨rfl, rfl⟩
  · intro p hp q hq
    obtain ⟨f, hf, rfl⟩ := List.mem_map.1 hp
    obtain ⟨g, hg, rfl⟩ := List.mem_map.1 hq
    rfl

/-- A current page used in concrete scenarios. -/
def pgHome : Page := { id := "home", title := "Home", content := "<p>old</p>" }

/-- The incoming replacement for the home page in concrete scenarios. -/
def pgHomeNew : Page := { id := "home", title := "Home", content := "<p>new</p>" }

/-- A genuinely new incoming page in concrete scenarios. -/
def pgAbout : Page := { id := "about", title := "About", content := "<p>about</p>" }

/-- Witness for the amended C3 theorem at the scenario of the spec: one current
page home, an incoming batch updating home and adding about. -/
theorem mergePages_spec_witness :
    (([pgHome].map Page.id).Nodup) ∧
    (((mergePages [pgHome] [pgHomeNew, pgAbout]).map Page.id =
        [pgHome].map Page.id ++
          newKeysP isValidPageRec [pgHomeNew, pgAbout] ([pgHome].map Page.id)) ∧
      (∀ p ∈ [pgHome], ∃ q ∈ mergePages [pgHome] [pgHomeNew, pgAbout], q.id = p.id) ∧
      (∀ p ∈ [pgHomeNew, pgAbout], isValidPageRec p = true →
        (mergePages [pgHome] [pgHomeNew, pgAbout]).find? (fun q => q.id == p.id) =
          lastP isValidPageRec [pgHomeNew, pgAbout] p.id) ∧
      (∀ i : Nat, ∀ p : Page, ([pgHome])[i]? = some p →
        (∀ q ∈ [pgHomeNew, pgAbout], isValidPageRec q = true → q.id ≠ p.id) →
        (mergePages [pgHome] [pgHomeNew, pgAbout])[i]? = some p)) :=
  ⟨by decide, mergePages_spec [pgHome] [pgHomeNew, pgAbout] (by decide)⟩

/-- A concrete app state used in witnesses. -/
def stEx : AppState :=
  { messages := [], latestPages := some [pgHome], isLoading := false, error := none }

/-- Witness for the C8 theorem at concrete inputs. -/
theorem pageId_nodup_invariant_witness :
    (([pgHome].map Page.id).Nodup) ∧ (([pgAbout].map Page.id).Nodup) ∧
    (([pgHomeNew].map Page.id).Nodup) ∧
    (((mergePages [pgHome] [pgHomeNew, pgAbout]).map Page.id).Nodup ∧
      ((updatePageContent [pgAbout] "about" "<p>x</p>").map Page.id).Nodup ∧
      (∀ pages, (handleRestoreVersion stEx [pgHomeNew]).latestPages = some pages →
        (pages.map Page.id).Nodup)) :=
  ⟨by decide, by decide, by decide,
    pageId_nodup_invariant [pgHome] [pgHomeNew, pgAbout] [pgAbout] [pgHomeNew]
      "about" "<p>x</p>" stEx (by decide) (by decide) (by decide)⟩

/-- A string literal as a character list. -/
def lit (s : String) : List Char := s.data

/-- Case-insensitive character comparison (regex flag i, ASCII patterns):
equal outright, or equal after folding one uppercase ASCII letter onto the
other character. -/
def ciEq (a b : Char) : Bool :=
  a == b ||
  (a.toNat + 32 == b.toNat && 65 ≤ a.toNat && a.toNat ≤ 90) ||
  (b.toNat + 32 == a.toNat && 65 ≤ b.toNat && b.toNat ≤ 90)

/-- Case-insensitive prefix match. -/
def ciPrefix : List Char → List Char → Bool
  | [], _ => true
  | _ :: _, [] => false
  | p :: ps, c :: cs => ciEq p c && ciPrefix ps cs

/-- The two quote characters of the regex classes. -/
def isQuoteChar (c : Char) : Bool := c == '"' || c == Char.ofNat 39

/-- Split a string at the first occurrence of a needle, as
String.prototype.replace locates its first match (tail-recursive worker). -/
def splitFirstAux (n : List Char) (acc : List Char) : List Char → Option (List Char × List Char)
  | [] => none
  | c :: rest =>
    if n.isPrefixOf (c :: rest) then some (acc.reverse, (c :: rest).drop n.length)
    else splitFirstAux n (c :: acc) rest

/-- Split a string at the first occurrence of a needle. -/
def splitFirst (n s : List Char) : Option (List Char × List Char) :=
  splitFirstAux n [] s

/-- Structural version of splitFirst, used in proofs. -/
def splitFirstSimple (n : List Char) : List Char → Option (List Char × List Char)
  | [] => none
  | c :: rest =>
    if n.isPrefixOf (c :: rest) then some ([], (c :: rest).drop n.length)
    else
      match splitFirstSimple n rest with
      | some (a, b) => some (c :: a, b)
      | none => none

/-- JavaScript String.prototype.includes for a non-empty needle. -/
def includesS (n s : List Char) : Bool := (splitFirst n s).isSome

/-- JavaScript String.prototype.replace with a plain string pattern: replace
the first occurrence, or return the string unchanged. -/
def replaceFirst (n r s : List Char) : List Char :=
  match splitFirst n s with
  | some (a, b) => a ++ r ++ b
  | none => s

/-- Tail-recursive worker counting the positions where the needle starts an
occurrence. -/
def countOccsAux (n : List Char) (acc : Nat) : List Char → Nat
  | [] => acc
  | c :: rest =>
    if n.isPrefixOf (c :: rest) then countOccsAux n (acc + 1) rest
    else countOccsAux n acc rest

/-- The number of positions where the needle starts an occurrence (the needles
used below cannot overlap themselves, so this counts occurrences). -/
def countOccs (n s : List Char) : Nat := countOccsAux n 0 s

/-- JavaScript String.prototype.trim. -/
def jsTrim (s : List Char) : List Char :=
  ((s.dropWhile jsWhitespace).reverse.dropWhile jsWhitespace).reverse

/-- The characters encodeURIComponent leaves unescaped. -/
def uriUnreserved (c : Char) : Bool :=
  (48 ≤ c.toNat && c.toNat ≤ 57) || (65 ≤ c.toNat && c.toNat ≤ 90) ||
  (97 ≤ c.toNat && c.toNat ≤ 122) ||
  c == '-' || c == '_' || c == '.' || c == '!' || c == '~' || c == '*' ||
  c == Char.ofNat 39 || c == '(' || c == ')'

/-- Upper-case hexadecimal digit of a value below 16. -/
def hexDigit (n : Nat) : Char :=
  if n < 10 then Char.ofNat (48 + n) else Char.ofNat (55 + n)

/-- The UTF-8 bytes of one character. -/
def utf8Bytes (c : Char) : List Nat :=
  let n := c.toNat
  if n < 0x80 then [n]
  else if n < 0x800 then [0xc0 + n / 64, 0x80 + n % 64]
  else if n < 0x10000 then [0xe0 + n / 4096, 0x80 + (n / 64) % 64, 0x80 + n % 64]
  else [0xf0 + n / 262144, 0x80 + (n / 4096) % 64, 0x80 + (n / 64) % 64, 0x80 + n % 64]

/-- JavaScript encodeURIComponent. -/
def encodeURIComponent (s : List Char) : List Char :=
  (s.map (fun c =>
    if uriUnreserved c then [c]
    else ((utf8Bytes c).map (fun b => ['%', hexDigit (b / 16), hexDigit (b % 16)])).flatten)).flatten

/-- One match of the image-tag regex of processHtml: the three capture groups,
the matched region exactly as written in the input, and the rest of the input
after the match. -/
structure ImgMatch where
  before : List Char
  srcval : List Char
  after : List Char
  region : List Char
  rest : List Char
  deriving DecidableEq, Repr

/-- The tail of the image regex for a fixed extent of the first capture group:
literal src= (case-insensitive), an opening quote, a non-empty quote-free
source value, a closing quote, a greedy gt-free third group, the closing gt. -/
def tryImgTail (imgTagOrig A rem : List Char) : Option ImgMatch :=
  if ciPrefix (lit "src=") rem then
    match rem.drop 4 with
    | [] => none
    | q1 :: rem3 =>
      if isQuoteChar q1 then
        if (rem3.takeWhile (fun c => !(isQuoteChar c))).isEmpty then none
        else
          match rem3.drop (rem3.takeWhile (fun c => !(isQuoteChar c))).length with
          | [] => none
          | q2 :: rem4 =>
            if isQuoteChar q2 then
              match rem4.drop (rem4.takeWhile (fun c => !(c == '>'))).length with
              | [] => none
              | gt :: rest =>
                some { before := A,
                       srcval := rem3.takeWhile (fun c => !(isQuoteChar c)),
                       after := rem4.takeWhile (fun c => !(c == '>')),
                       region := imgTagOrig ++ A ++ rem.take 4 ++ [q1] ++
                         rem3.takeWhile (fun c => !(isQuoteChar c)) ++ [q2] ++
                         rem4.takeWhile (fun c => !(c == '>')) ++ [gt],
                       rest := rest }
            else none
      else none
  else none

/-- Backtrack the greedy first capture group from length k down to 1, taking
the first success, as the regex engine does. -/
def tryImgA (imgTagOrig s4 : List Char) : Nat → Option ImgMatch
  | 0 => none
  | k + 1 =>
    match tryImgTail imgTagOrig (s4.take (k + 1)) (s4.drop (k + 1)) with
    | some m => some m
    | none => tryImgA imgTagOrig s4 k

/-- Try the image regex of processHtml at the head of the string. -/
def tryMatchImg (s : List Char) : Option ImgMatch :=
  if ciPrefix (lit "<img") s then
    tryImgA (s.take 4) (s.drop 4) ((s.drop 4).takeWhile (fun c => !(c == '>'))).length
  else none

/-- Whether the matched source survives the rewrite: the replace callback
returns the match unchanged for absolute http or data sources. -/
def keepSrcVal (sv : List Char) : Bool :=
  (lit "http").isPrefixOf (jsTrim sv) || (lit "data:").isPrefixOf (jsTrim sv)

/-- The alt regex at the head of the string: alt= (case-insensitive), a quote,
a non-empty quote-free value, a closing quote. -/
def tryAltAt (s : List Char) : Option (List Char) :=
  if ciPrefix (lit "alt=") s then
    match s.drop 4 with
    | [] => none
    | q1 :: r =>
      if isQuoteChar q1 then
        let v := r.takeWhile (fun c => !(isQuoteChar c))
        if v.isEmpty then none
        else
          match r.drop v.length with
          | [] => none
          | _ :: _ => some v
      else none
    else none

/-- The first match of the alt regex anywhere in the string. -/
def findAlt : List Char → Option (List Char)
  | [] => none
  | c :: rest =>
    match tryAltAt (c :: rest) with
    | some v => some v
    | none => findAlt rest

/-- The replacement the callback of processHtml builds for a rewritten image
tag, preserving any alt text as the description of the generated image. -/
def imgReplacement (m : ImgMatch) : List Char :=
  let altText := (findAlt (m.before ++ m.after)).getD (lit "abstract design")
  lit "<img" ++ m.before ++ lit "src=\"https://image.pollinations.ai/prompt/" ++
    encodeURIComponent altText ++ lit "\"" ++ m.after ++ lit ">"

theorem drop_takeWhile_length (p : Char → Bool) (l : List Char) :
    l.drop (l.takeWhile p).length = l.dropWhile p := by
  induction l with
  | nil => rfl
  | cons a t ih =>
    by_cases hp : p a = true
    · simp [List.takeWhile_cons, List.dropWhile_cons, hp, ih]
    · simp [List.takeWhile_cons, List.dropWhile_cons, hp]

theorem dropWhile_head_not (p : Char → Bool) (l : List Char) (c : Char) (rest : List Char)
    (h : l.dropWhile p = c :: rest) : p c = false := by
  induction l with
  | nil => cases h
  | cons a t ih =>
    rw [List.dropWhile_cons] at h
    by_cases hp : p a = true
    · rw [if_pos hp] at h
      exact ih h
    · rw [if_neg hp] at h
      have h1 : a = c := (List.cons.inj h).1
      rw [← h1]
      cases e : p a
      · rfl
      · exact absurd e hp

theorem take_of_takeWhile_le (p : Char → Bool) (l : List Char) (n : Nat)
    (hn : n ≤ (l.takeWhile p).length) : ∀ c ∈ l.take n, p c = true := by
  intro c hc
  have hpre : l.takeWhile p <+: l := List.takeWhile_prefix p
  have h1 : l.takeWhile p = l.take (l.takeWhile p).length := List.prefix_iff_eq_take.1 hpre
  have heq : l.take n = (l.takeWhile p).take n := by
    rw [h1, List.take_take, Nat.min_eq_left hn]
  rw [heq] at hc
  exact List.mem_takeWhile_imp (List.take_subset _ _ hc)

theorem takeWhile_split (p : Char → Bool) (l : List Char) :
    l = l.takeWhile p ++ l.drop (l.takeWhile p).length := by
  rw [drop_takeWhile_length]
  exact (List.takeWhile_append_dropWhile p l).symm

theorem ciEq_lt_eq (c : Char) (h : ciEq '<' c = true) : c = '<' := by
  by_cases he : c = '<'
  · exact he
  · exfalso
    unfold ciEq at h
    have hb : ('<' == c) = false := by
      simp only [beq_eq_false_iff_ne, ne_eq]
      exact fun e => he e.symm
    rw [hb, Bool.false_or, Bool.or_eq_true] at h
    have h60 : Char.toNat '<' = 60 := rfl
    rcases h with h | h
    · rw [Bool.and_eq_true, Bool.and_eq_true] at h
      obtain ⟨⟨ha, hb1⟩, hb2⟩ := h
      have hle : (65:Nat) ≤ Char.toNat '<' := of_decide_eq_true hb1
      rw [h60] at hle
      omega
    · rw [Bool.and_eq_true, Bool.and_eq_true] at h
      obtain ⟨⟨ha, hb1⟩, hb2⟩ := h
      have heq : c.toNat + 32 = Char.toNat '<' := beq_iff_eq.1 ha
      have hle : (65:Nat) ≤ c.toNat := of_decide_eq_true hb1
      rw [h60] at heq
      omega

theorem ciPrefix_length (p : List Char) : ∀ s : List Char, ciPrefix p s = true →
    p.length ≤ s.length := by
  induction p with
  | nil => intro s _; simp
  | cons a ps ih =>
    intro s h
    cases s with
    | nil => cases h
    | cons c cs =>
      simp only [ciPrefix, Bool.and_eq_true] at h
      simpa using Nat.succ_le_succ (ih cs h.2)

theorem ciPrefix_head (a : Char) (ps : List Char) (s : List Char)
    (h : ciPrefix (a :: ps) s = true) : ∃ c cs, s = c :: cs ∧ ciEq a c = true := by
  cases s with
  | nil => cases h
  | cons c cs =>
    simp only [ciPrefix, Bool.and_eq_true] at h
    exact ⟨c, cs, rfl, h.1⟩

theorem tryImgTail_sound (io A rem : List Char) (m : ImgMatch)
    (h : tryImgTail io A rem = some m) :
    m.before = A ∧
    io ++ A ++ rem = m.region ++ m.rest ∧
    (∀ c ∈ m.after, (c == '>') = false) ∧
    (∃ W, m.region = W ++ m.after ++ ['>']) ∧
    (∃ R2, m.region = io ++ R2) := by
  unfold tryImgTail at h
  by_cases h1 : ciPrefix (lit "src=") rem = true
  · rw [if_pos h1] at h
    cases e2 : rem.drop 4 with
    | nil =>
      simp only [e2] at h
      cases h
    | cons q1 rem3 =>
      simp only [e2] at h
      by_cases h2 : isQuoteChar q1 = true
      · rw [if_pos h2] at h
        by_cases h3 : (rem3.takeWhile (fun c => !(isQuoteChar c))).isEmpty = true
        · rw [if_pos h3] at h
          cases h
        · rw [if_neg h3] at h
          cases e3 : rem3.drop (rem3.takeWhile (fun c => !(isQuoteChar c))).length with
          | nil =>
            simp only [e3] at h
            cases h
          | cons q2 rem4 =>
            simp only [e3] at h
            by_cases h4 : isQuoteChar q2 = true
            · rw [if_pos h4] at h
              cases e4 : rem4.drop (rem4.takeWhile (fun c => !(c == '>'))).length with
              | nil =>
                simp only [e4] at h
                cases h
              | cons gt rest =>
                simp only [e4, Option.some.injEq] at h
                cases h
                have hgt : gt = '>' := by
                  rw [drop_takeWhile_length] at e4
                  have := dropWhile_head_not _ _ _ _ e4
                  simpa using this
                have hrem3 : rem3 = rem3.takeWhile (fun c => !(isQuoteChar c)) ++
                    (q2 :: rem4) := by
                  rw [← e3]
                  exact takeWhile_split _ rem3
                have hrem4 : rem4 = rem4.takeWhile (fun c => !(c == '>')) ++
                    (gt :: rest) := by
                  rw [← e4]
                  exact takeWhile_split _ rem4
                have hrem : rem = rem.take 4 ++ (q1 :: rem3) := by
                  rw [← e2]
                  exact (List.take_append_drop 4 rem).symm
                refine ⟨rfl, ?_, ?_, ?_, ?_⟩
                · conv_lhs => rw [hrem]
                  conv_lhs => rw [hrem3]
                  conv_lhs => rw [hrem4]
                  simp [hgt, List.append_assoc]
                · intro c hc
                  simpa using List.mem_takeWhile_imp hc
                · refine ⟨io ++ A ++ rem.take 4 ++ [q1] ++
                    rem3.takeWhile (fun c => !(isQuoteChar c)) ++ [q2], ?_⟩
                  simp [hgt, List.append_assoc]
                · refine ⟨A ++ rem.take 4 ++ [q1] ++
                    rem3.takeWhile (fun c => !(isQuoteChar c)) ++ [q2] ++
                    rem4.takeWhile (fun c => !(c == '>')) ++ [gt], ?_⟩
                  simp [List.append_assoc]
            · rw [if_neg h4] at h
              cases h
      · rw [if_neg h2] at h
        cases h
  · rw [if_neg h1] at h
    cases h

theorem tryImgA_sound (io s4 : List Char) : ∀ K : Nat, ∀ m : ImgMatch,
    tryImgA io s4 K = some m →
    ∃ j : Nat, j < K ∧ tryImgTail io (s4.take (j + 1)) (s4.drop (j + 1)) = some m := by
  intro K
  induction K with
  | zero => intro m h; cases h
  | succ k ih =>
    intro m h
    simp only [tryImgA] at h
    cases e : tryImgTail io (s4.take (k + 1)) (s4.drop (k + 1)) with
    | some m2 =>
      rw [e] at h
      cases h
      exact ⟨k, Nat.lt_succ_self k, e⟩
    | none =>
      rw [e] at h
      obtain ⟨j, hj, hjt⟩ := ih m h
      exact ⟨j, Nat.lt_succ_of_lt hj, hjt⟩

theorem tryMatchImg_sound (s : List Char) (m : ImgMatch) (h : tryMatchImg s = some m) :
    s = m.region ++ m.rest ∧
    (∀ c ∈ m.before, (c == '>') = false) ∧
    (∀ c ∈ m.after, (c == '>') = false) ∧
    (∃ W, m.region = W ++ m.after ++ ['>']) ∧
    (∃ R, m.region = '<' :: R) := by
  unfold tryMatchImg at h
  by_cases h0 : ciPrefix (lit "<img") s = true
  · rw [if_pos h0] at h
    obtain ⟨j, hj, hjt⟩ := tryImgA_sound _ _ _ m h
    obtain ⟨hb, hre, haf, hW, hio⟩ := tryImgTail_sound _ _ _ m hjt
    have hs : s = m.region ++ m.rest := by
      rw [← hre]
      conv_lhs => rw [← List.take_append_drop 4 s]
      conv_lhs => rw [← List.take_append_drop (j + 1) (s.drop 4)]
      simp [List.append_assoc]
    refine ⟨hs, ?_, haf, hW, ?_⟩
    · intro c hc
      rw [hb] at hc
      have := take_of_takeWhile_le (fun c => !(c == '>')) (s.drop 4) (j + 1)
        (Nat.succ_le_of_lt hj) c hc
      simpa using this
    · obtain ⟨R2, hR2⟩ := hio
      obtain ⟨c0, cs, hcs, hci⟩ := ciPrefix_head '<' (lit "img") s h0
      have hc0 : c0 = '<' := ciEq_lt_eq c0 hci
      refine ⟨(cs.take 3) ++ R2, ?_⟩
      rw [hR2, hcs, hc0]
      rfl
  · rw [if_neg h0] at h
    cases h

theorem tryMatchImg_rest_lt (s : List Char) (m : ImgMatch) (h : tryMatchImg s = some m) :
    m.rest.length < s.length := by
  obtain ⟨hs, _, _, hW, _⟩ := tryMatchImg_sound s m h
  obtain ⟨W, hr⟩ := hW
  rw [hs, hr]
  simp only [List.length_append, List.length_cons, List.length_nil]
  omega

/-- The global image-tag replace of processHtml, with fuel (the length of the
string is always enough fuel). -/
def rewriteImgTagsF : Nat → List Char → List Char
  | 0, s => s
  | _ + 1, [] => []
  | fuel + 1, c :: rest =>
    match tryMatchImg (c :: rest) with
    | some m =>
      (if keepSrcVal m.srcval then m.region else imgReplacement m) ++
        rewriteImgTagsF fuel m.rest
    | none => c :: rewriteImgTagsF fuel rest

theorem rewriteImgTagsF_congr : ∀ (f1 : Nat) (s : List Char) (f2 : Nat),
    s.length ≤ f1 → s.length ≤ f2 → rewriteImgTagsF f1 s = rewriteImgTagsF f2 s := by
  intro f1
  induction f1 with
  | zero =>
    intro s f2 h1 h2
    have hs : s = [] := List.length_eq_zero.1 (Nat.le_zero.1 h1)
    subst hs
    cases f2 with
    | zero => rfl
    | succ g => rfl
  | succ f ih =>
    intro s f2 h1 h2
    cases s with
    | nil =>
      cases f2 with
      | zero => rfl
      | succ g => rfl
    | cons c rest =>
      cases f2 with
      | zero =>
        rw [List.length_cons] at h2
        omega
      | succ g =>
        simp only [rewriteImgTagsF]
        cases e : tryMatchImg (c :: rest) with
        | some m =>
          simp only [e]
          have hlt := tryMatchImg_rest_lt _ _ e
          rw [List.length_cons] at h1 h2 hlt
          rw [ih m.rest g (by omega) (by omega)]
        | none =>
          simp only [e]
          rw [List.length_cons] at h1 h2
          rw [ih rest g (by omega) (by omega)]

/-- Tail-recursive list length, as fuel for the rewrite worker. -/
def listLen (acc : Nat) : List Char → Nat
  | [] => acc
  | _ :: t => listLen (acc + 1) t

theorem listLen_eq (l : List Char) : ∀ acc : Nat, listLen acc l = acc + l.length := by
  induction l with
  | nil => intro acc; simp [listLen]
  | cons c t ih =>
    intro acc
    simp only [listLen, ih (acc + 1), List.length_cons]
    omega

/-- The image-path normalization step of processHtml (lines 125 to 131). -/
def rewriteImgTags (s : List Char) : List Char := rewriteImgTagsF (listLen 0 s) s

theorem rewriteImgTags_nil : rewriteImgTags [] = [] := rfl

theorem rewriteImgTags_eq_length (s : List Char) :
    rewriteImgTags s = rewriteImgTagsF s.length s := by
  unfold rewriteImgTags
  rw [listLen_eq s 0, Nat.zero_add]

theorem rewriteImgTags_cons (c : Char) (rest : List Char) :
    rewriteImgTags (c :: rest) =
      match tryMatchImg (c :: rest) with
      | some m =>
        (if keepSrcVal m.srcval then m.region else imgReplacement m) ++
          rewriteImgTags m.rest
      | none => c :: rewriteImgTags rest := by
  rw [rewriteImgTags_eq_length]
  rw [List.length_cons]
  simp only [rewriteImgTagsF]
  cases e : tryMatchImg (c :: rest) with
  | some m =>
    simp only [e]
    have hlt := tryMatchImg_rest_lt _ _ e
    rw [List.length_cons] at hlt
    rw [rewriteImgTagsF_congr rest.length m.rest m.rest.length (by omega) (Nat.le_refl _)]
    rw [rewriteImgTags_eq_length]
  | none =>
    simp only [e]
    rw [rewriteImgTags_eq_length]

/-- The document type marker processHtml looks for (line 157). -/
def doctypeMarker : List Char := lit "<!DOCTYPE html>"

/-- The head open tag processHtml looks for (line 178). -/
def headTag : List Char := lit "<head>"

/-- The body close tag processHtml looks for (line 151). -/
def bodyCloseTag : List Char := lit "</body>"

/-- The content-security-policy meta tag of processHtml (line 123). -/
def cspMetaTag : List Char :=
  lit "<meta http-equiv=\"Content-Security-Policy\" content=\"default-src \x27none\x27; script-src \x27unsafe-inline\x27 \x27unsafe-eval\x27 https://cdn.tailwindcss.com; style-src \x27unsafe-inline\x27 https://fonts.googleapis.com https://cdn.tailwindcss.com; font-src https://fonts.gstatic.com; img-src data: https:; connect-src https:; frame-ancestors \x27none\x27;\">"

/-- Everything of the injected navigation script before the session token
(lines 133 to 136). -/
def navScriptA : List Char :=
  lit "\n      <script>\n        (function() \x7b\n          const NAV_TOKEN = \""

/-- Everything of the injected navigation script after the session token
(lines 136 to 149). -/
def navScriptB : List Char :=
  lit "\";\n          document.addEventListener(\x27click\x27, (e) => \x7b\n            const link = e.target.closest(\x27a\x27);\n            if (link) \x7b\n              const href = link.getAttribute(\x27href\x27);\n              if (href && !href.startsWith(\x27http\x27) && !href.startsWith(\x27#\x27) && !href.startsWith(\x27mailto\x27) && !href.startsWith(\x27javascript:\x27)) \x7b\n                e.preventDefault();\n                window.parent.postMessage(\x7b type: \x27NAVIGATE_TO_PAGE\x27, pageId: href, token: NAV_TOKEN \x7d, \x27*\x27);\n              \x7d\n            \x7d\n          \x7d);\n        \x7d)();\n      </script>\n    "

/-- The navigation script of processHtml (lines 133 to 149), with the session
token spliced in. -/
def navScript (tok : List Char) : List Char := navScriptA ++ tok ++ navScriptB

/-- The navigation-script injection of processHtml (lines 151 to 155): insert
before the first closing body tag when present, else append at the end. -/
def injectNavScript (tok s : List Char) : List Char :=
  if includesS bodyCloseTag s then
    replaceFirst bodyCloseTag (navScript tok ++ bodyCloseTag) s
  else s ++ navScript tok

/-- The document shell of processHtml up to the embedded content
(lines 158 to 174), with the CSP meta tag spliced in. -/
def shellPre : List Char :=
  lit "\n        <!DOCTYPE html>\n        <html lang=\"en\">\n          <head>\n            <meta charset=\"UTF-8\">\n            <meta name=\"viewport\" content=\"width=device-width, initial-scale=1.0\">\n            " ++
  cspMetaTag ++
  lit "\n            <script src=\"https://cdn.tailwindcss.com\"></script>\n            <script>\n              tailwind.config = \x7b theme: \x7b extend: \x7b fontFamily: \x7b sans: [\x27Inter\x27, \x27sans-serif\x27], serif: [\x27Playfair Display\x27, \x27serif\x27], mono: [\x27JetBrains Mono\x27, \x27monospace\x27] \x7d \x7d \x7d \x7d\n            </script>\n            <style>\n              ::-webkit-scrollbar \x7b width: 0px; background: transparent; \x7d\n              body \x7b -ms-overflow-style: none; scrollbar-width: none; \x7d\n            </style>\n          </head>\n          <body class=\"min-h-screen bg-white text-black\">"

/-- The document shell after the embedded content (lines 174 to 176). -/
def shellPost : List Char := lit "</body>\n        </html>\n      "

/-- processHtml from src/components/PreviewArea.tsx (lines 119 to 183): empty
input short-circuits; image sources are normalized; the navigation script is
injected; a content without a doctype marker is wrapped in the document shell;
a full document gets the CSP meta tag injected after its first head open
tag. -/
def processHtml (tok html : List Char) : List Char :=
  if html.isEmpty then []
  else
    if !(includesS doctypeMarker (injectNavScript tok (rewriteImgTags html))) then
      shellPre ++ injectNavScript tok (rewriteImgTags html) ++ shellPost
    else
      if includesS headTag (injectNavScript tok (rewriteImgTags html)) then
        replaceFirst headTag (headTag ++ cspMetaTag)
          (injectNavScript tok (rewriteImgTags html))
      else injectNavScript tok (rewriteImgTags html)

/-- The characters Math.random().toString(36).slice(2, 9) can produce for the
session token: decimal digits and lowercase ASCII letters. -/
def tokenChar (c : Char) : Bool :=
  (48 ≤ c.toNat && c.toNat ≤ 57) || (97 ≤ c.toNat && c.toNat ≤ 122)

theorem getLast?_eq_some_mem {l : List Char} {a : Char} (h : l.getLast? = some a) :
    a ∈ l := by
  have h2 : a ∈ l.getLast? := by rw [h]; rfl
  obtain ⟨hne, he⟩ := List.mem_getLast?_eq_getLast h2
  rw [he]
  exact List.getLast_mem hne

theorem suffix_getLast? {x A : List Char} (h : x <:+ A) (hne : x ≠ []) :
    x.getLast? = A.getLast? := by
  obtain ⟨s, hs⟩ := h
  rw [← hs, List.getLast?_append_of_ne_nil _ hne]

theorem append_singleton_inj {a b : List Char} {x y : Char}
    (h : a ++ [x] = b ++ [y]) : a = b ∧ x = y := by
  have hx : (a ++ [x]).getLast? = some x := List.getLast?_concat _
  have hy : (b ++ [y]).getLast? = some y := List.getLast?_concat _
  rw [h, hy] at hx
  have hxy : y = x := Option.some.inj hx
  constructor
  · have h2 := congrArg List.dropLast h
    simpa [List.dropLast_concat] using h2
  · exact hxy.symm

theorem infix_append_cases {n A B : List Char} (h : n <:+: A ++ B) :
    n <:+: A ∨ n <:+: B ∨
      ∃ k, 0 < k ∧ k < n.length ∧ n.take k <:+ A ∧ n.drop k <+: B := by
  obtain ⟨X, Y, hXY⟩ := h
  by_cases h1 : X.length + n.length ≤ A.length
  · left
    have hpre : X ++ n <+: A ++ B := ⟨Y, hXY⟩
    have hlen : (X ++ n).length ≤ A.length := by
      rw [List.length_append]; omega
    have he : X ++ n = (A ++ B).take (X ++ n).length := List.prefix_iff_eq_take.1 hpre
    rw [List.take_append_of_le_length hlen] at he
    have hpA : X ++ n <+: A := by
      rw [he]; exact List.take_prefix _ _
    obtain ⟨Z, hZ⟩ := hpA
    exact ⟨X, Z, hZ⟩
  · by_cases h2 : A.length ≤ X.length
    · right; left
      have ht : (X ++ (n ++ Y)).take A.length = A := by
        rw [← List.append_assoc, hXY, List.take_left]
      rw [List.take_append_of_le_length h2] at ht
      refine ⟨X.drop A.length, Y, ?_⟩
      have hsplit : A ++ X.drop A.length = X := by
        nth_rewrite 1 [← ht]
        exact List.take_append_drop _ _
      have h3 := hXY
      rw [← hsplit] at h3
      simp only [List.append_assoc] at h3
      have hB := List.append_cancel_left h3
      rw [List.append_assoc]
      exact hB
    · right; right
      push_neg at h1 h2
      set k := A.length - X.length with hk
      have hA : A = X ++ n.take k := by
        have h3 : (X ++ (n ++ Y)).take A.length = A := by
          rw [← List.append_assoc, hXY, List.take_left]
        rw [List.take_append_eq_append_take] at h3
        rw [List.take_of_length_le (by omega : X.length ≤ A.length)] at h3
        rw [List.take_append_of_le_length (by omega : A.length - X.length ≤ n.length)] at h3
        rw [← hk] at h3
        exact h3.symm
      refine ⟨k, by omega, by omega, ⟨X, hA.symm⟩, ?_⟩
      have h4 : (X ++ n) ++ Y = (X ++ n.take k) ++ B := by
        rw [hXY, hA]
      simp only [List.append_assoc] at h4
      have h5 := List.append_cancel_left h4
      have h6 : n.take k ++ (n.drop k ++ Y) = n.take k ++ B := by
        rw [← List.append_assoc, List.take_append_drop]
        exact h5
      exact ⟨Y, List.append_cancel_left h6⟩

theorem suffix_append_cases {t A B : List Char} (h : t <:+ A ++ B) :
    t <:+ B ∨ ∃ u, u ≠ [] ∧ t = u ++ B ∧ u <:+ A := by
  obtain ⟨s, hs⟩ := h
  rcases List.append_eq_append_iff.1 hs with ⟨w, hw1, hw2⟩ | ⟨w, hw1, hw2⟩
  · by_cases hwn : w = []
    · subst hwn
      left
      simp only [List.nil_append] at hw2
      rw [hw2]
    · right
      exact ⟨w, hwn, hw2, ⟨s, hw1.symm⟩⟩
  · left
    exact ⟨w, hw2.symm⟩

theorem infix_end_gt {Dbody R : List Char} (hR : ∀ c ∈ R, c ≠ '>')
    (h : (Dbody ++ ['>']) <:+: (R ++ ['>'])) : Dbody <:+ R := by
  obtain ⟨X, Y, hXY⟩ := h
  cases Y using List.reverseRecOn with
  | nil =>
    rw [List.append_nil] at hXY
    rw [← List.append_assoc] at hXY
    obtain ⟨h1, _⟩ := append_singleton_inj hXY
    exact ⟨X, h1⟩
  | append_singleton Y0 y =>
    exfalso
    have h2 : (X ++ (Dbody ++ ['>'] ++ Y0)) ++ [y] = R ++ ['>'] := by
      rw [← hXY]
      simp [List.append_assoc]
    obtain ⟨h3, _⟩ := append_singleton_inj h2
    have hm : ('>' : Char) ∈ R := by
      rw [← h3]
      simp
    exact hR _ hm rfl

theorem char_toNat_lt (c : Char) : c.toNat < 1114112 := by
  have h := c.valid
  unfold UInt32.isValidChar at h
  unfold Nat.isValidChar at h
  have h2 : c.toNat = c.val.toNat := rfl
  rcases h with h | ⟨h1, h3⟩
  · omega
  · omega

theorem utf8Bytes_lt (c : Char) : ∀ b ∈ utf8Bytes c, b < 256 := by
  intro b hb
  unfold utf8Bytes at hb
  have hc := char_toNat_lt c
  by_cases h1 : c.toNat < 0x80
  · rw [if_pos h1] at hb
    simp only [List.mem_singleton] at hb
    omega
  · rw [if_neg h1] at hb
    by_cases h2 : c.toNat < 0x800
    · rw [if_pos h2] at hb
      simp only [List.mem_cons, List.mem_singleton] at hb
      rcases hb with hb | hb | hb
      · omega
      · omega
      · cases hb
    · rw [if_neg h2] at hb
      by_cases h3 : c.toNat < 0x10000
      · rw [if_pos h3] at hb
        simp only [List.mem_cons, List.mem_singleton] at hb
        rcases hb with hb | hb | hb | hb
        · omega
        · omega
        · omega
        · cases hb
      · rw [if_neg h3] at hb
        simp only [List.mem_cons, List.mem_singleton] at hb
        rcases hb with hb | hb | hb | hb | hb
        · omega
        · omega
        · omega
        · omega
        · cases hb

theorem hexDigit_ne_gt : ∀ k : Fin 16, hexDigit k.val ≠ '>' := by decide

theorem enc_no_gt (s : List Char) : ∀ c ∈ encodeURIComponent s, c ≠ '>' := by
  intro c hc
  unfold encodeURIComponent at hc
  rw [List.mem_flatten] at hc
  obtain ⟨l, hl, hcl⟩ := hc
  rw [List.mem_map] at hl
  obtain ⟨ch, hch, hle⟩ := hl
  by_cases hu : uriUnreserved ch = true
  · rw [if_pos hu] at hle
    rw [← hle] at hcl
    simp only [List.mem_singleton] at hcl
    subst hcl
    intro he
    subst he
    exact absurd hu (by decide)
  · rw [if_neg hu] at hle
    rw [← hle] at hcl
    rw [List.mem_flatten] at hcl
    obtain ⟨l2, hl2, hcl2⟩ := hcl
    rw [List.mem_map] at hl2
    obtain ⟨b, hb, hbe⟩ := hl2
    have hb256 : b < 256 := utf8Bytes_lt ch b hb
    rw [← hbe] at hcl2
    simp only [List.mem_cons, List.mem_singleton] at hcl2
    rcases hcl2 with hc1 | hc1 | hc1 | hc1
    · rw [hc1]
      decide
    · rw [hc1]
      exact hexDigit_ne_gt ⟨b / 16, by omega⟩
    · rw [hc1]
      exact hexDigit_ne_gt ⟨b % 16, by omega⟩
    · cases hc1

theorem splitFirstAux_eq (n : List Char) : ∀ s acc : List Char,
    splitFirstAux n acc s =
      (splitFirstSimple n s).map (fun ab => (acc.reverse ++ ab.1, ab.2)) := by
  intro s
  induction s with
  | nil => intro acc; rfl
  | cons c rest ih =>
    intro acc
    simp only [splitFirstAux, splitFirstSimple]
    by_cases hp : n.isPrefixOf (c :: rest) = true
    · rw [if_pos hp, if_pos hp]
      simp
    · rw [if_neg hp, if_neg hp]
      rw [ih (c :: acc)]
      cases e : splitFirstSimple n rest with
      | none => rfl
      | some ab =>
        simp [List.append_assoc]

theorem splitFirst_eq_simple (n s : List Char) :
    splitFirst n s = splitFirstSimple n s := by
  unfold splitFirst
  rw [splitFirstAux_eq]
  cases e : splitFirstSimple n s with
  | none => rfl
  | some ab => simp

theorem splitFirstSimple_sound (n : List Char) : ∀ s a b : List Char,
    splitFirstSimple n s = some (a, b) → s = a ++ n ++ b := by
  intro s
  induction s with
  | nil => intro a b h; cases h
  | cons c rest ih =>
    intro a b h
    simp only [splitFirstSimple] at h
    by_cases hp : n.isPrefixOf (c :: rest) = true
    · rw [if_pos hp] at h
      have h2 := Option.some.inj h
      have ha : ([] : List Char) = a := congrArg Prod.fst h2
      have hb : (c :: rest).drop n.length = b := congrArg Prod.snd h2
      obtain ⟨t, ht⟩ := List.isPrefixOf_iff_prefix.1 hp
      have hbt : t = b := by
        rw [← hb, ← ht, List.drop_left]
      rw [← ha, ← hbt, List.nil_append, ht]
    · rw [if_neg hp] at h
      cases e : splitFirstSimple n rest with
      | none =>
        rw [e] at h
        cases h
      | some ab =>
        rw [e] at h
        have h2 := Option.some.inj h
        have ha : c :: ab.1 = a := congrArg Prod.fst h2
        have hb : ab.2 = b := congrArg Prod.snd h2
        have h3 := ih ab.1 ab.2 e
        rw [← ha, ← hb, List.cons_append, List.cons_append, ← h3]

theorem splitFirstSimple_isSome_of_infix (n : List Char) (hn : n ≠ []) :
    ∀ s : List Char, n <:+: s → (splitFirstSimple n s).isSome = true := by
  intro s
  induction s with
  | nil =>
    intro h
    exact absurd (List.eq_nil_of_infix_nil h) hn
  | cons c rest ih =>
    intro h
    simp only [splitFirstSimple]
    by_cases hp : n.isPrefixOf (c :: rest) = true
    · rw [if_pos hp]
      rfl
    · rw [if_neg hp]
      rcases List.infix_cons_iff.1 h with hpre | htail
      · exact absurd (List.isPrefixOf_iff_prefix.2 hpre) hp
      · have h2 := ih htail
        cases e : splitFirstSimple n rest with
        | none =>
          rw [e] at h2
          cases h2
        | some ab =>
          rfl

theorem splitFirstSimple_infix (n s a b : List Char)
    (h : splitFirstSimple n s = some (a, b)) : n <:+: s := by
  rw [splitFirstSimple_sound n s a b h]
  exact ⟨a, b, rfl⟩

theorem includesS_iff (n s : List Char) (hn : n ≠ []) :
    includesS n s = true ↔ n <:+: s := by
  unfold includesS
  rw [splitFirst_eq_simple]
  constructor
  · intro h
    cases e : splitFirstSimple n s with
    | none =>
      rw [e] at h
      cases h
    | some ab =>
      exact splitFirstSimple_infix n s ab.1 ab.2 (by rw [e])
  · intro h
    exact splitFirstSimple_isSome_of_infix n hn s h

theorem splitFirstSimple_first (n : List Char) (hn : n ≠ []) : ∀ s a b : List Char,
    splitFirstSimple n s = some (a, b) → ¬ (n <:+: a) := by
  intro s
  induction s with
  | nil => intro a b h; cases h
  | cons c rest ih =>
    intro a b h
    simp only [splitFirstSimple] at h
    by_cases hp : n.isPrefixOf (c :: rest) = true
    · rw [if_pos hp] at h
      have ha : ([] : List Char) = a := congrArg Prod.fst (Option.some.inj h)
      rw [← ha]
      intro hinf
      exact hn (List.eq_nil_of_infix_nil hinf)
    · rw [if_neg hp] at h
      cases e : splitFirstSimple n rest with
      | none =>
        rw [e] at h
        cases h
      | some ab =>
        rw [e] at h
        have h2 := Option.some.inj h
        have ha : c :: ab.1 = a := congrArg Prod.fst h2
        rw [← ha]
        intro hinf
        rcases List.infix_cons_iff.1 hinf with hpre | htail
        · have hrest : rest = ab.1 ++ n ++ ab.2 := splitFirstSimple_sound n rest ab.1 ab.2 e
          have hab1 : c :: ab.1 <+: c :: rest := by
            rw [List.cons_prefix_cons]
            exact ⟨rfl, ⟨n ++ ab.2, by rw [← List.append_assoc, ← hrest]⟩⟩
          exact absurd (List.isPrefixOf_iff_prefix.2 (hpre.trans hab1)) hp
        · exact ih ab.1 ab.2 e htail

theorem prefix_head_mem {y : List Char} {c : Char} {w : List Char}
    (h : y <+: c :: w) (hy : y ≠ []) : c ∈ y := by
  cases y with
  | nil => exact absurd rfl hy
  | cons yc yt =>
    obtain ⟨h1, h2⟩ := List.cons_prefix_cons.1 h
    rw [← h1]
    exact List.mem_cons_self _ _

theorem suffix_last_mem {y A : List Char} {c : Char} (h : y <:+ A) (hy : y ≠ [])
    (hc : A.getLast? = some c) : c ∈ y := by
  have h2 := suffix_getLast? h hy
  rw [hc] at h2
  exact getLast?_eq_some_mem h2

theorem suffix_prefix_infix {x A y B : List Char} (hx : x <:+ A) (hy : y <+: B) :
    x ++ y <:+: A ++ B := by
  obtain ⟨a0, ha⟩ := hx
  obtain ⟨b0, hb⟩ := hy
  exact ⟨a0, b0, by rw [← ha, ← hb]; simp [List.append_assoc]⟩

/-- The doctype marker without its closing angle bracket. -/
def doctypeBody : List Char := lit "<!DOCTYPE html"

/-- The doctype marker without its opening angle bracket. -/
def doctypeTail : List Char := lit "!DOCTYPE html>"

theorem doctype_eq_body : doctypeMarker = doctypeBody ++ ['>'] := by decide

theorem doctype_eq_cons : doctypeMarker = '<' :: doctypeTail := by decide

theorem doctype_len : doctypeMarker.length = 15 := by decide

theorem doctypeBody_no_gt : ∀ c ∈ doctypeBody, c ≠ '>' := by decide

theorem doctypeTail_no_lt : ∀ c ∈ doctypeTail, c ≠ '<' := by decide

theorem quote_not_mem_doctypeBody : Char.ofNat 34 ∉ doctypeBody := by decide

theorem newline_not_mem_doctype : Char.ofNat 10 ∉ doctypeMarker := by decide

theorem doctype_take_mem_lt (k : Nat) (hk : 0 < k) : '<' ∈ doctypeMarker.take k := by
  cases k with
  | zero => omega
  | succ j =>
    rw [doctype_eq_cons, List.take_succ_cons]
    exact List.mem_cons_self _ _

theorem doctype_drop_subset_tail (k : Nat) (hk : 0 < k) :
    doctypeMarker.drop k ⊆ doctypeTail := by
  intro c hc
  cases k with
  | zero => omega
  | succ j =>
    rw [doctype_eq_cons, List.drop_succ_cons] at hc
    exact List.drop_subset j doctypeTail hc

theorem doctype_take_ne_nil (k : Nat) (hk : 0 < k) : doctypeMarker.take k ≠ [] := by
  intro h
  have h1 : (doctypeMarker.take k).length = min k 15 := by
    rw [List.length_take, doctype_len]
  rw [h] at h1
  simp only [List.length_nil] at h1
  omega

theorem doctype_drop_ne_nil (k : Nat) (hk : k < 15) : doctypeMarker.drop k ≠ [] := by
  intro h
  have h1 : (doctypeMarker.drop k).length = 15 - k := by
    rw [List.length_drop, doctype_len]
  rw [h] at h1
  simp only [List.length_nil] at h1
  omega

theorem doctype_take_no_gt (k : Nat) (hk : k < 15) :
    ∀ c ∈ doctypeMarker.take k, c ≠ '>' := by
  intro c hc
  have hl : k ≤ doctypeBody.length := by
    have : doctypeBody.length = 14 := by decide
    omega
  rw [doctype_eq_body, List.take_append_of_le_length hl] at hc
  exact doctypeBody_no_gt c (List.take_subset k doctypeBody hc)

theorem doctype_drop_no_prefix_of_not_mem (k : Nat) (hk : k < 15)
    (c : Char) (hc : c ∉ doctypeMarker) (w : List Char)
    (h : doctypeMarker.drop k <+: c :: w) : False := by
  have hne := doctype_drop_ne_nil k hk
  have hmem := prefix_head_mem h hne
  exact hc (List.drop_subset k doctypeMarker hmem)

theorem doctype_drop_no_prefix_lt (k : Nat) (hk0 : 0 < k) (hk : k < 15)
    (w : List Char) (h : doctypeMarker.drop k <+: '<' :: w) : False := by
  have hne := doctype_drop_ne_nil k hk
  have hmem := prefix_head_mem h hne
  exact doctypeTail_no_lt '<' (doctype_drop_subset_tail k hk0 hmem) rfl


theorem doctype_not_infix_navA : ¬ (doctypeMarker <:+: navScriptA) := by decide

theorem doctype_not_infix_navB : ¬ (doctypeMarker <:+: navScriptB) := by decide

theorem doctype_not_infix_body : ¬ (doctypeMarker <:+: bodyCloseTag) := by decide

theorem doctype_take_not_suffix_navA :
    ∀ k : Fin 15, 0 < k.val → ¬ (doctypeMarker.take k.val <:+ navScriptA) := by decide

theorem doctype_take_not_suffix_navB :
    ∀ k : Fin 15, 0 < k.val → ¬ (doctypeMarker.take k.val <:+ navScriptB) := by decide

theorem doctype_take_not_suffix_body :
    ∀ k : Fin 15, 0 < k.val → ¬ (doctypeMarker.take k.val <:+ bodyCloseTag) := by decide

theorem doctype_infix_shellPre : doctypeMarker <:+: shellPre := by decide

theorem bodyCloseTag_cons : bodyCloseTag = '<' :: lit "/body>" := by decide

theorem navScriptA_cons : navScriptA =
    Char.ofNat 10 ::
      lit "      <script>\n        (function() \x7b\n          const NAV_TOKEN = \"" := by
  decide

theorem imgReplacement_head (m : ImgMatch) : ∃ w, imgReplacement m = '<' :: w :=
  ⟨_, rfl⟩

theorem imgReplacement_structure (m : ImgMatch)
    (hb : ∀ c ∈ m.before, (c == '>') = false)
    (ha : ∀ c ∈ m.after, (c == '>') = false) :
    ∃ G : List Char,
      imgReplacement m = G ++ ['>'] ∧
      (∃ G0, G = G0 ++ [Char.ofNat 34] ++ m.after) ∧
      (∀ c ∈ G, c ≠ '>') := by
  refine ⟨lit "<img" ++ m.before ++ lit "src=\"https://image.pollinations.ai/prompt/" ++
      encodeURIComponent ((findAlt (m.before ++ m.after)).getD (lit "abstract design")) ++
      lit "\"" ++ m.after, ?_, ?_, ?_⟩
  · have hgt : lit ">" = ['>'] := rfl
    simp only [imgReplacement, hgt, List.append_assoc]
  · refine ⟨lit "<img" ++ m.before ++ lit "src=\"https://image.pollinations.ai/prompt/" ++
      encodeURIComponent ((findAlt (m.before ++ m.after)).getD (lit "abstract design")), ?_⟩
    have hq : lit "\"" = [Char.ofNat 34] := by decide
    simp only [hq, List.append_assoc]
  · intro c hc
    simp only [List.mem_append] at hc
    rcases hc with ((((h1 | h2) | h3) | h4) | h5) | h6
    · exact (by decide : ∀ x ∈ lit "<img", x ≠ '>') c h1
    · have := hb c h2
      simp only [beq_eq_false_iff_ne, ne_eq] at this
      exact this
    · exact (by decide : ∀ x ∈ lit "src=\"https://image.pollinations.ai/prompt/", x ≠ '>') c h3
    · exact enc_no_gt _ c h4
    · exact (by decide : ∀ x ∈ lit "\"", x ≠ '>') c h5
    · have := ha c h6
      simp only [beq_eq_false_iff_ne, ne_eq] at this
      exact this

theorem prefix_transfer : ∀ N : Nat, ∀ u p : List Char, u.length ≤ N →
    (∀ c ∈ p, c ≠ '<') → p <+: rewriteImgTags u → p <+: u := by
  intro N
  induction N with
  | zero =>
    intro u p hu hp hpre
    have hu0 : u = [] := List.length_eq_zero.1 (Nat.le_zero.1 hu)
    subst hu0
    rw [rewriteImgTags_nil] at hpre
    exact hpre
  | succ N ih =>
    intro u p hu hp hpre
    cases u with
    | nil =>
      rw [rewriteImgTags_nil] at hpre
      exact hpre
    | cons c rest =>
      rw [rewriteImgTags_cons] at hpre
      cases e : tryMatchImg (c :: rest) with
      | some m =>
        simp only [e] at hpre
        cases p with
        | nil => exact List.nil_prefix
        | cons pc pt =>
          exfalso
          by_cases hk : keepSrcVal m.srcval = true
          · rw [if_pos hk] at hpre
            obtain ⟨hs, hbef, haft, hW, hR⟩ := tryMatchImg_sound _ _ e
            obtain ⟨R, hRe⟩ := hR
            rw [hRe, List.cons_append] at hpre
            obtain ⟨h1, h2⟩ := List.cons_prefix_cons.1 hpre
            exact hp pc (List.mem_cons_self _ _) h1
          · rw [if_neg hk] at hpre
            obtain ⟨w, hw⟩ := imgReplacement_head m
            rw [hw, List.cons_append] at hpre
            obtain ⟨h1, h2⟩ := List.cons_prefix_cons.1 hpre
            exact hp pc (List.mem_cons_self _ _) h1
      | none =>
        simp only [e] at hpre
        cases p with
        | nil => exact List.nil_prefix
        | cons pc pt =>
          obtain ⟨h1, h2⟩ := List.cons_prefix_cons.1 hpre
          have h3 := ih rest pt (by rw [List.length_cons] at hu; omega)
            (fun c2 hc2 => hp c2 (List.mem_cons_of_mem _ hc2)) h2
          rw [List.cons_prefix_cons]
          exact ⟨h1, h3⟩

theorem prefix_transfer_apply (u p : List Char) (hp : ∀ c ∈ p, c ≠ '<')
    (hpre : p <+: rewriteImgTags u) : p <+: u :=
  prefix_transfer u.length u p (Nat.le_refl _) hp hpre

theorem rewrite_no_doctype : ∀ N : Nat, ∀ u : List Char, u.length ≤ N →
    ¬ (doctypeMarker <:+: u) → ¬ (doctypeMarker <:+: rewriteImgTags u) := by
  intro N
  induction N with
  | zero =>
    intro u hu hnd
    have hu0 : u = [] := List.length_eq_zero.1 (Nat.le_zero.1 hu)
    subst hu0
    rw [rewriteImgTags_nil]
    exact hnd
  | succ N ih =>
    intro u hu hnd
    cases u with
    | nil =>
      rw [rewriteImgTags_nil]
      exact hnd
    | cons c rest =>
      rw [rewriteImgTags_cons]
      cases e : tryMatchImg (c :: rest) with
      | none =>
        simp only [e]
        intro hinf
        rcases List.infix_cons_iff.1 hinf with hpre | htail
        · rw [doctype_eq_cons] at hpre
          obtain ⟨h1, h2⟩ := List.cons_prefix_cons.1 hpre
          have h3 := prefix_transfer_apply rest doctypeTail doctypeTail_no_lt h2
          apply hnd
          have h4 : doctypeMarker <+: c :: rest := by
            rw [doctype_eq_cons, List.cons_prefix_cons]
            exact ⟨h1, h3⟩
          exact h4.isInfix
        · have h5 : ¬ doctypeMarker <:+: rest :=
            fun hh => hnd (List.infix_cons_iff.2 (Or.inr hh))
          exact ih rest (by rw [List.length_cons] at hu; omega) h5 htail
      | some m =>
        simp only [e]
        intro hinf
        obtain ⟨hs, hbef, haft, hW, hR⟩ := tryMatchImg_sound _ _ e
        have hregpre : m.region <+: c :: rest := ⟨m.rest, hs.symm⟩
        have hrestsuf : m.rest <:+ c :: rest := ⟨m.region, hs.symm⟩
        have hrest_nd : ¬ doctypeMarker <:+: m.rest :=
          fun hh => hnd (hh.trans hrestsuf.isInfix)
        have hlenr : m.rest.length ≤ N := by
          have hlt := tryMatchImg_rest_lt _ _ e
          rw [List.length_cons] at hlt hu
          omega
        have hihrec := ih m.rest hlenr hrest_nd
        by_cases hk : keepSrcVal m.srcval = true
        · rw [if_pos hk] at hinf
          rcases infix_append_cases hinf with hA | hB | ⟨k, hk0, hkl, hks, hkp⟩
          · exact hnd (hA.trans hregpre.isInfix)
          · exact hihrec hB
          · rw [doctype_len] at hkl
            have hdropfree : ∀ ch ∈ doctypeMarker.drop k, ch ≠ '<' :=
              fun ch hch => doctypeTail_no_lt ch (doctype_drop_subset_tail k hk0 hch)
            have hdp : doctypeMarker.drop k <+: m.rest :=
              prefix_transfer_apply _ _ hdropfree hkp
            apply hnd
            rw [hs]
            have h6 : doctypeMarker.take k ++ doctypeMarker.drop k <:+:
                m.region ++ m.rest := suffix_prefix_infix hks hdp
            rw [List.take_append_drop] at h6
            exact h6
        · rw [if_neg hk] at hinf
          obtain ⟨G, hGe, ⟨G0, hG0⟩, hGfree⟩ := imgReplacement_structure m hbef haft
          rcases infix_append_cases hinf with hA | hB | ⟨k, hk0, hkl, hks, hkp⟩
          · rw [hGe, doctype_eq_body] at hA
            have hDb : doctypeBody <:+ G := infix_end_gt hGfree hA
            rw [hG0] at hDb
            rcases suffix_append_cases hDb with hsa | ⟨uu, hune, huDb, huG⟩
            · apply hnd
              rw [hs]
              have h7 : doctypeBody ++ ['>'] <:+: m.after ++ ['>'] :=
                suffix_prefix_infix hsa (List.prefix_refl _)
              rw [← doctype_eq_body] at h7
              obtain ⟨W, hWe⟩ := hW
              have h8 : m.after ++ ['>'] <:+: m.region := by
                refine ⟨W, [], ?_⟩
                rw [hWe]
                simp [List.append_assoc]
              have h9 : m.region <:+: m.region ++ m.rest :=
                (List.prefix_append m.region m.rest).isInfix
              exact (h7.trans h8).trans h9
            · have hql : (G0 ++ [Char.ofNat 34]).getLast? = some (Char.ofNat 34) :=
                List.getLast?_concat _
              have hqm : Char.ofNat 34 ∈ uu := suffix_last_mem huG hune hql
              have hupre : uu <+: doctypeBody := ⟨m.after, huDb.symm⟩
              exact quote_not_mem_doctypeBody (hupre.subset hqm)
          · exact hihrec hB
          · rw [doctype_len] at hkl
            rw [hGe] at hks
            have htkn := doctype_take_ne_nil k hk0
            have hgl : (G ++ ['>']).getLast? = some '>' := List.getLast?_concat _
            have hgtm : ('>' : Char) ∈ doctypeMarker.take k :=
              suffix_last_mem hks htkn hgl
            exact doctype_take_no_gt k hkl '>' hgtm rfl

theorem navScript_head (tok : List Char) :
    navScript tok = Char.ofNat 10 ::
      (lit "      <script>\n        (function() \x7b\n          const NAV_TOKEN = \"" ++
        tok ++ navScriptB) := by
  unfold navScript
  rw [navScriptA_cons, List.cons_append, List.cons_append]

theorem navScript_no_doctype (tok : List Char)
    (htok : ∀ c ∈ tok, tokenChar c = true) :
    ¬ (doctypeMarker <:+: navScript tok) := by
  intro h
  unfold navScript at h
  rw [List.append_assoc] at h
  rcases infix_append_cases h with hA | hBC | ⟨k, hk0, hkl, hks, hkp⟩
  · exact doctype_not_infix_navA hA
  · rcases infix_append_cases hBC with hT | hB | ⟨k, hk0, hkl, hks, hkp⟩
    · have hlt : ('<' : Char) ∈ tok := hT.subset (by decide)
      have := htok '<' hlt
      exact absurd this (by decide)
    · exact doctype_not_infix_navB hB
    · have hlt : ('<' : Char) ∈ tok := hks.subset (doctype_take_mem_lt k hk0)
      have := htok '<' hlt
      exact absurd this (by decide)
  · rw [doctype_len] at hkl
    exact doctype_take_not_suffix_navA ⟨k, hkl⟩ hk0 hks

theorem injectNavScript_no_doctype (tok s : List Char)
    (htok : ∀ c ∈ tok, tokenChar c = true)
    (hnd : ¬ (doctypeMarker <:+: s)) :
    ¬ (doctypeMarker <:+: injectNavScript tok s) := by
  unfold injectNavScript
  by_cases hb : includesS bodyCloseTag s = true
  · rw [if_pos hb]
    unfold replaceFirst
    rw [splitFirst_eq_simple]
    cases e : splitFirstSimple bodyCloseTag s with
    | none =>
      exact hnd
    | some ab =>
      obtain ⟨a, b⟩ := ab
      have hsd : s = a ++ bodyCloseTag ++ b := splitFirstSimple_sound _ _ _ _ e
      intro h
      have h2 : doctypeMarker <:+: a ++ (navScript tok ++ (bodyCloseTag ++ b)) := by
        simp only [List.append_assoc] at h
        exact h
      rcases infix_append_cases h2 with hA | hRest | ⟨k, hk0, hkl, hks, hkp⟩
      · apply hnd
        have hap : a <+: s := ⟨bodyCloseTag ++ b, by rw [hsd]; simp [List.append_assoc]⟩
        exact hA.trans hap.isInfix
      · rcases infix_append_cases hRest with hN | hBB | ⟨k, hk0, hkl, hks, hkp⟩
        · exact navScript_no_doctype tok htok hN
        · rcases infix_append_cases hBB with hBo | hB2 | ⟨k, hk0, hkl, hks, hkp⟩
          · exact doctype_not_infix_body hBo
          · apply hnd
            have hbs : b <:+ s := ⟨a ++ bodyCloseTag, hsd.symm⟩
            exact hB2.trans hbs.isInfix
          · rw [doctype_len] at hkl
            exact doctype_take_not_suffix_body ⟨k, hkl⟩ hk0 hks
        · rw [doctype_len] at hkl
          rw [bodyCloseTag_cons, List.cons_append] at hkp
          exact doctype_drop_no_prefix_lt k hk0 hkl _ hkp
      · rw [doctype_len] at hkl
        rw [navScript_head, List.cons_append] at hkp
        exact doctype_drop_no_prefix_of_not_mem k hkl _ newline_not_mem_doctype _ hkp
  · rw [if_neg hb]
    intro h
    rcases infix_append_cases h with hA | hB | ⟨k, hk0, hkl, hks, hkp⟩
    · exact hnd hA
    · exact navScript_no_doctype tok htok hB
    · rw [doctype_len] at hkl
      rw [navScript_head] at hkp
      exact doctype_drop_no_prefix_of_not_mem k hkl _ newline_not_mem_doctype _ hkp

theorem includesS_false_of_not_infix (n s : List Char) (hn : n ≠ [])
    (h : ¬ (n <:+: s)) : includesS n s = false := by
  cases e : includesS n s with
  | false => rfl
  | true => exact absurd ((includesS_iff n s hn).1 e) h

/-- C7: processHtml wraps content lacking a doctype in the document shell.
Corrected: the claim fails for the empty input, which short-circuits to the
empty output with no doctype; for every non-empty input without a doctype
marker and the alphanumeric session token the app generates, the output is
the document shell with the processed content (image rewrite plus navigation
script) embedded verbatim between the shell halves, and the output contains
the doctype marker. -/
theorem processHtml_no_doctype_shell (tok html : List Char)
    (htok : ∀ c ∈ tok, tokenChar c = true)
    (hne : html ≠ [])
    (hnd : ¬ (doctypeMarker <:+: html)) :
    processHtml tok html =
      shellPre ++ injectNavScript tok (rewriteImgTags html) ++ shellPost ∧
    doctypeMarker <:+: processHtml tok html := by
  have h1 : ¬ (doctypeMarker <:+: rewriteImgTags html) :=
    rewrite_no_doctype html.length html (Nat.le_refl _) hnd
  have h2 : ¬ (doctypeMarker <:+: injectNavScript tok (rewriteImgTags html)) :=
    injectNavScript_no_doctype tok _ htok h1
  have h3 : includesS doctypeMarker (injectNavScript tok (rewriteImgTags html)) = false :=
    includesS_false_of_not_infix _ _ (by decide) h2
  have h4 : html.isEmpty = false := by
    cases html with
    | nil => exact absurd rfl hne
    | cons c rest => rfl
  have h5 : processHtml tok html =
      shellPre ++ injectNavScript tok (rewriteImgTags html) ++ shellPost := by
    unfold processHtml
    rw [h4, h3]
    rfl
  refine ⟨h5, ?_⟩
  rw [h5]
  have h6 : shellPre <+: shellPre ++
      (injectNavScript tok (rewriteImgTags html) ++ shellPost) :=
    List.prefix_append _ _
  have h7 := doctype_infix_shellPre.trans h6.isInfix
  rw [List.append_assoc]
  exact h7

/-- Counterexample to C7 as stated: the empty input lacks a doctype marker,
yet processHtml returns the empty string, which contains no doctype. -/
theorem processHtml_no_doctype_counterexample :
    processHtml (lit "tok1234") [] = [] ∧
    ¬ (doctypeMarker <:+: processHtml (lit "tok1234") []) := by
  constructor
  · rfl
  · intro h
    exact absurd (List.eq_nil_of_infix_nil h) (by decide)

/-- Witness for the C7 theorem at a concrete input. -/
theorem processHtml_no_doctype_shell_witness :
    processHtml (lit "tok1234") (lit "<p>hi</p>") =
      shellPre ++ injectNavScript (lit "tok1234")
        (rewriteImgTags (lit "<p>hi</p>")) ++ shellPost ∧
    doctypeMarker <:+: processHtml (lit "tok1234") (lit "<p>hi</p>") :=
  processHtml_no_doctype_shell (lit "tok1234") (lit "<p>hi</p>")
    (by decide) (by decide) (by decide)

/-- C2: CSP injection into a full document. Corrected: on an input whose
processed intermediate contains the doctype marker and a head open tag,
processHtml inserts the CSP meta tag right after the first head open tag and
nowhere else (the prefix before that tag holds no head open tag); but the
claimed idempotence of the injection step fails: a second application of
processHtml to the already-processed output adds a second CSP meta tag, since
the output still contains a head open tag and the injection does not check
for an existing CSP tag. -/
theorem processHtml_csp_insertion (tok html : List Char)
    (hne : html ≠ [])
    (hdoc : includesS doctypeMarker (injectNavScript tok (rewriteImgTags html)) = true)
    (hhead : includesS headTag (injectNavScript tok (rewriteImgTags html)) = true) :
    ∃ X Y : List Char,
      injectNavScript tok (rewriteImgTags html) = X ++ headTag ++ Y ∧
      ¬ (headTag <:+: X) ∧
      processHtml tok html = X ++ (headTag ++ cspMetaTag) ++ Y := by
  have h4 : html.isEmpty = false := by
    cases html with
    | nil => exact absurd rfl hne
    | cons c rest => rfl
  have h5 : processHtml tok html =
      replaceFirst headTag (headTag ++ cspMetaTag)
        (injectNavScript tok (rewriteImgTags html)) := by
    unfold processHtml
    rw [h4, hdoc, hhead]
    rfl
  unfold replaceFirst at h5
  rw [splitFirst_eq_simple] at h5
  have hsome : (splitFirstSimple headTag
      (injectNavScript tok (rewriteImgTags html))).isSome = true := by
    unfold includesS at hhead
    rw [splitFirst_eq_simple] at hhead
    exact hhead
  cases e : splitFirstSimple headTag (injectNavScript tok (rewriteImgTags html)) with
  | none =>
    rw [e] at hsome
    cases hsome
  | some ab =>
    obtain ⟨a, b⟩ := ab
    rw [e] at h5
    exact ⟨a, b, splitFirstSimple_sound _ _ _ _ e,
      splitFirstSimple_first headTag (by decide) _ _ _ e, h5⟩

/-- Counterexample to C2 as stated: on a full document the first application
injects one CSP meta tag, and a second application of processHtml to the
already-processed output injects a second one. -/
theorem processHtml_csp_counterexample :
    countOccs cspMetaTag (processHtml (lit "tok1234")
      (lit "<!DOCTYPE html><html><head></head><body>hi</body></html>")) = 1 ∧
    countOccs cspMetaTag (processHtml (lit "tok1234") (processHtml (lit "tok1234")
      (lit "<!DOCTYPE html><html><head></head><body>hi</body></html>"))) = 2 := by
  constructor
  · decide
  · decide

/-- Witness for the C2 theorem at a concrete full document. -/
theorem processHtml_csp_insertion_witness :
    ∃ X Y : List Char,
      injectNavScript (lit "tok1234") (rewriteImgTags
        (lit "<!DOCTYPE html><html><head></head><body>hi</body></html>")) =
        X ++ headTag ++ Y ∧
      ¬ (headTag <:+: X) ∧
      processHtml (lit "tok1234")
        (lit "<!DOCTYPE html><html><head></head><body>hi</body></html>") =
        X ++ (headTag ++ cspMetaTag) ++ Y :=
  processHtml_csp_insertion (lit "tok1234")
    (lit "<!DOCTYPE html><html><head></head><body>hi</body></html>")
    (by decide) (by decide) (by decide)
